import Mathlib

/-!
Verification development for the serde_fs filesystem codec
(src/lib.rs, src/ser.rs, src/de.rs).

The filesystem is modelled as a finite tree of directories and files
(`FsNode`), file contents as byte lists, and paths as lists of name
segments.  The serializer (`serNode` / `serializeW`, from src/ser.rs)
and the deserializer (`deNode` / `deserializeW`, from src/de.rs) are
shallow embeddings of the Rust code: each equation mirrors the
corresponding `Serializer` / `Deserializer` method.  Platform text
conversions (`format!` / `str::parse`) are modelled by executable
decimal formatters and parsers over bytes, and `char` encoding by an
explicit UTF-8 encoder, so that the byte-level behaviour of
`deserialize_char` (which reads a single byte) is captured faithfully.

External I/O failures (disk errors) are out of scope: filesystem
primitives fail only for the structural reasons the code can itself
provoke (missing files, removing a directory with `remove_file`, a
file blocking a directory path, ...).
-/

set_option maxHeartbeats 1600000

abbrev Bytes := List Nat

/-- ASCII whitespace recognizer used to model `str::trim` (the Rust
version trims Unicode whitespace; the claims only involve ASCII). -/
def isWsByte (b : Nat) : Bool := b = 32 || b = 9 || b = 10 || b = 11 || b = 12 || b = 13

/-- Model of `str::trim`: drop leading and trailing whitespace bytes. -/
def trimBytes (bs : Bytes) : Bytes :=
  ((bs.dropWhile isWsByte).reverse.dropWhile isWsByte).reverse

/-- Little-endian decimal digits of `n` (digit values, not bytes); the
first argument is fuel, with `n` itself always sufficient. -/
def natRevDigits : Nat → Nat → List Nat
  | 0, _ => []
  | fuel+1, n => if n = 0 then [] else n % 10 :: natRevDigits fuel (n / 10)

/-- Big-endian decimal digits of `n`; empty for 0. -/
def natDigits (n : Nat) : List Nat := (natRevDigits n n).reverse

def digitByte (d : Nat) : Nat := 48 + d

/-- Canonical decimal text of a natural number as bytes: the output of
Rust `format!` for an unsigned integer. -/
def natBytes (n : Nat) : Bytes := if n = 0 then [48] else (natDigits n).map digitByte

/-- Canonical decimal text of an integer as bytes: the output of Rust
`format!` for a signed integer (45 is the minus sign). -/
def intBytes (i : Int) : Bytes := if i < 0 then 45 :: natBytes i.natAbs else natBytes i.natAbs

def digitVal? (b : Nat) : Option Nat := if 48 ≤ b ∧ b ≤ 57 then some (b - 48) else none

def digitsVal : Nat → Bytes → Option Nat
  | acc, [] => some acc
  | acc, b :: rest =>
    match digitVal? b with
    | some d => digitsVal (acc * 10 + d) rest
    | none => none

/-- Model of Rust `str::parse::<uN>` on a digit string (no sign):
at least one digit, all bytes digits.  Overflow of the fixed-width
Rust types is not modelled (the claims never reach it). -/
def parseNatBytes : Bytes → Option Nat
  | [] => none
  | b :: rest => digitsVal 0 (b :: rest)

/-- Model of Rust `str::parse::<iN>`: optional `+` or `-` sign followed
by at least one digit. -/
def parseIntBytes : Bytes → Option Int
  | 43 :: rest => (parseNatBytes rest).map Int.ofNat
  | 45 :: rest => (parseNatBytes rest).map (fun n => -Int.ofNat n)
  | bs => (parseNatBytes bs).map Int.ofNat

/-- Model of Rust `str::parse::<bool>`: exactly the strings true/false. -/
def parseBoolBytes (bs : Bytes) : Option Bool :=
  if bs = [116, 114, 117, 101] then some true
  else if bs = [102, 97, 108, 115, 101] then some false
  else none

/-- UTF-8 encoding of a single character, byte by byte; this is what
writing a Rust char or string to a file produces. -/
def utf8Bytes (c : Char) : Bytes :=
  let n := c.toNat
  if n < 128 then [n]
  else if n < 2048 then [192 + n / 64, 128 + n % 64]
  else if n < 65536 then [224 + n / 4096, 128 + n / 64 % 64, 128 + n % 64]
  else [240 + n / 262144, 128 + n / 4096 % 64, 128 + n / 64 % 64, 128 + n % 64]

def charsBytes : List Char → Bytes
  | [] => []
  | c :: cs => utf8Bytes c ++ charsBytes cs

/-- UTF-8 bytes of a string (used for file contents written from
`&str` values such as variant names and booleans). -/
def strBytes (s : String) : Bytes := charsBytes s.data

/-- Decimal file/directory name of a sequence index, as produced by
`format!("{}", counter)`. -/
def natToStr (n : Nat) : String :=
  String.mk (if n = 0 then [Char.ofNat 48] else (natDigits n).map (fun d => Char.ofNat (48 + d)))

def parseNatChars (l : List Char) : Option Nat := parseNatBytes (l.map Char.toNat)

/-- Model of `str::parse::<usize>` on a file name, as used by sequence
reconciliation: optional `+` sign then at least one digit. -/
def parseUsize (s : String) : Option Nat :=
  match s.data with
  | c :: rest => if c = Char.ofNat 43 then parseNatChars rest else parseNatChars (c :: rest)
  | [] => none

theorem digitsVal_append (acc : Nat) (xs ys : Bytes) :
    digitsVal acc (xs ++ ys) =
      match digitsVal acc xs with
      | some a => digitsVal a ys
      | none => none := by
  induction xs generalizing acc with
  | nil => simp [digitsVal]
  | cons b rest ih =>
    simp only [List.cons_append, digitsVal]
    cases digitVal? b with
    | none => simp
    | some d => simp [ih]

theorem natRevDigits_lt_ten {fuel n : Nat} : ∀ d ∈ natRevDigits fuel n, d < 10 := by
  induction fuel generalizing n with
  | zero => simp [natRevDigits]
  | succ fuel ih =>
    intro d hd
    by_cases h0 : n = 0
    · simp [natRevDigits, h0] at hd
    · simp only [natRevDigits, if_neg h0, List.mem_cons] at hd
      rcases hd with rfl | h
      · exact Nat.mod_lt _ (by omega)
      · exact ih d h

theorem digitsVal_digits (fuel n acc : Nat) (h : n ≤ fuel) :
    digitsVal acc (((natRevDigits fuel n).reverse).map digitByte) =
      some (acc * 10 ^ (natRevDigits fuel n).length + n) := by
  induction fuel generalizing n acc with
  | zero =>
    have : n = 0 := Nat.le_zero.mp h
    simp [natRevDigits, digitsVal, this]
  | succ fuel ih =>
    by_cases h0 : n = 0
    · simp [natRevDigits, digitsVal, h0]
    · have hdiv : n / 10 ≤ fuel := by
        have : n / 10 < n := Nat.div_lt_self (Nat.pos_of_ne_zero h0) (by omega)
        omega
      simp only [natRevDigits, if_neg h0, List.reverse_cons, List.map_append]
      rw [digitsVal_append, ih (n / 10) acc hdiv]
      have hm : n % 10 < 10 := Nat.mod_lt _ (by omega)
      simp only [List.map_cons, List.map_nil, digitsVal, digitByte, digitVal?]
      rw [if_pos (by omega)]
      simp only [digitsVal, List.length_cons]
      congr 1
      have : 48 + n % 10 - 48 = n % 10 := by omega
      rw [this]
      have := Nat.div_add_mod n 10
      ring_nf
      omega

theorem parseNatBytes_natBytes (n : Nat) : parseNatBytes (natBytes n) = some n := by
  by_cases h0 : n = 0
  · simp [natBytes, h0, parseNatBytes, digitsVal, digitVal?]
  · have hne : natRevDigits n n ≠ [] := by
      cases n with
      | zero => exact absurd rfl h0
      | succ m => simp [natRevDigits]
    have hval := digitsVal_digits n n 0 le_rfl
    have hform : natBytes n = ((natRevDigits n n).reverse).map digitByte := by
      simp [natBytes, if_neg h0, natDigits]
    rcases hrev : ((natRevDigits n n).reverse).map digitByte with _ | ⟨b, rest⟩
    · exfalso
      apply hne
      have : (natRevDigits n n).reverse = [] := by
        have := congrArg List.length hrev
        simpa using this
      simpa using this
    · rw [hform, hrev]
      rw [hrev] at hval
      simp only [parseNatBytes]
      simpa using hval

theorem natBytes_head_digit (n : Nat) :
    ∃ b bs, natBytes n = b :: bs ∧ 48 ≤ b ∧ b ≤ 57 := by
  by_cases h0 : n = 0
  · exact ⟨48, [], by simp [natBytes, h0], by omega, by omega⟩
  · have hne : natRevDigits n n ≠ [] := by
      cases n with
      | zero => exact absurd rfl h0
      | succ m => simp [natRevDigits]
    rcases hrev : (natRevDigits n n).reverse with _ | ⟨d, rest⟩
    · exact absurd (by simpa using hrev) hne
    · have hd : d < 10 := by
        apply @natRevDigits_lt_ten n n
        have : d ∈ (natRevDigits n n).reverse := by rw [hrev]; exact List.mem_cons_self _ _
        simpa using this
      refine ⟨digitByte d, rest.map digitByte, ?_, ?_, ?_⟩
      · simp [natBytes, if_neg h0, natDigits, hrev]
      · simp [digitByte]
      · simp [digitByte]; omega

theorem parseIntBytes_intBytes (i : Int) : parseIntBytes (intBytes i) = some i := by
  obtain ⟨b, bs, hbs, hb1, hb2⟩ := natBytes_head_digit i.natAbs
  by_cases hneg : i < 0
  · rw [intBytes, if_pos hneg]
    rw [show parseIntBytes (45 :: natBytes i.natAbs) =
        (parseNatBytes (natBytes i.natAbs)).map (fun n => -Int.ofNat n) from rfl]
    rw [parseNatBytes_natBytes]
    simp only [Option.map_some', Option.some.injEq, Int.ofNat_eq_coe]
    omega
  · rw [intBytes, if_neg hneg]
    rw [hbs]
    have h43 : b ≠ 43 := by omega
    have h45 : b ≠ 45 := by omega
    rw [show parseIntBytes (b :: bs) = (parseNatBytes (b :: bs)).map Int.ofNat from by
      rw [parseIntBytes.eq_def]
      split
      · rename_i heq; rw [List.cons.injEq] at heq; exact absurd heq.1 h43
      · rename_i heq; rw [List.cons.injEq] at heq; exact absurd heq.1 h45
      · rfl]
    rw [← hbs, parseNatBytes_natBytes]
    simp only [Option.map_some', Option.some.injEq, Int.ofNat_eq_coe]
    omega

theorem trimBytes_eq_self {bs : Bytes} (h : ∀ b ∈ bs, isWsByte b = false) :
    trimBytes bs = bs := by
  have h1 : bs.dropWhile isWsByte = bs := by
    cases bs with
    | nil => rfl
    | cons b rest => rw [List.dropWhile_cons_of_neg]; simp [h b (List.mem_cons_self _ _)]
  rw [trimBytes, h1]
  have h2 : bs.reverse.dropWhile isWsByte = bs.reverse := by
    cases hrev : bs.reverse with
    | nil => rfl
    | cons b rest =>
      rw [List.dropWhile_cons_of_neg]
      have : b ∈ bs := by
        have : b ∈ bs.reverse := by rw [hrev]; exact List.mem_cons_self _ _
        simpa using this
      simp [h b this]
  rw [h2, List.reverse_reverse]

theorem natBytes_no_ws (n : Nat) : ∀ b ∈ natBytes n, isWsByte b = false := by
  intro b hb
  by_cases h0 : n = 0
  · simp [natBytes, h0] at hb
    simp [hb, isWsByte]
  · simp only [natBytes, if_neg h0, natDigits, List.mem_map] at hb
    obtain ⟨d, hd, rfl⟩ := hb
    have : d < 10 := natRevDigits_lt_ten d (by simpa using hd)
    simp [digitByte, isWsByte]
    omega

theorem trimBytes_intBytes (i : Int) : trimBytes (intBytes i) = intBytes i := by
  apply trimBytes_eq_self
  intro b hb
  by_cases hneg : i < 0
  · simp only [intBytes, if_pos hneg, List.mem_cons] at hb
    rcases hb with rfl | hb
    · simp [isWsByte]
    · exact natBytes_no_ws _ b hb
  · simp only [intBytes, if_neg hneg] at hb
    exact natBytes_no_ws _ b hb

theorem charDigit_toNat {d : Nat} (h : d < 10) : (Char.ofNat (48 + d)).toNat = 48 + d := by
  interval_cases d <;> decide

theorem parseUsize_natToStr (n : Nat) : parseUsize (natToStr n) = some n := by
  by_cases h0 : n = 0
  · subst h0; decide
  · have hform : (natToStr n).data = (natDigits n).map (fun d => Char.ofNat (48 + d)) := by
      simp [natToStr, if_neg h0]
    have hmap : ((natDigits n).map (fun d => Char.ofNat (48 + d))).map Char.toNat =
        (natDigits n).map digitByte := by
      rw [List.map_map]
      apply List.map_congr_left
      intro d hd
      have hd10 : d < 10 := natRevDigits_lt_ten d (by simpa [natDigits] using hd)
      simp [Function.comp, digitByte, charDigit_toNat hd10]
    have hne : natRevDigits n n ≠ [] := by
      cases n with
      | zero => exact absurd rfl h0
      | succ m => simp [natRevDigits]
    have hdne : natDigits n ≠ [] := by simpa [natDigits] using hne
    rcases hd : natDigits n with _ | ⟨d, rest⟩
    · exact absurd hd hdne
    · have hd10 : d < 10 := by
        apply @natRevDigits_lt_ten n n
        have : d ∈ natDigits n := by rw [hd]; exact List.mem_cons_self _ _
        simpa [natDigits] using this
      rw [parseUsize.eq_def]
      have hdata : (natToStr n).data = Char.ofNat (48 + d) :: rest.map (fun d => Char.ofNat (48 + d)) := by
        rw [hform, hd]; rfl
      rw [hdata]
      have hplus : ¬ (Char.ofNat (48 + d) = Char.ofNat 43) := by
        intro hcontra
        have := congrArg Char.toNat hcontra
        rw [charDigit_toNat hd10] at this
        simp at this
        omega
      simp only [if_neg hplus]
      have : parseNatChars (Char.ofNat (48 + d) :: rest.map (fun d => Char.ofNat (48 + d))) =
          parseNatBytes (natBytes n) := by
        rw [parseNatChars]
        have : (Char.ofNat (48 + d) :: rest.map (fun d => Char.ofNat (48 + d))) =
            (natDigits n).map (fun d => Char.ofNat (48 + d)) := by rw [hd]; rfl
        rw [this, hmap, natBytes, if_neg h0]
      rw [this, parseNatBytes_natBytes]

theorem natToStr_inj {m n : Nat} (h : natToStr m = natToStr n) : m = n := by
  have hm := parseUsize_natToStr m
  have hn := parseUsize_natToStr n
  rw [h, hn] at hm
  exact ((Option.some.injEq _ _).mp hm).symm

theorem ne_natToStr_of_parseUsize_none {s : String} (h : parseUsize s = none) (j : Nat) :
    s ≠ natToStr j := by
  intro hcontra
  rw [hcontra, parseUsize_natToStr] at h
  exact Option.noConfusion h

/-- A filesystem node: a regular file with byte content, or a directory
with an ordered list of named children (new entries are appended, which
stands in for the unspecified on-disk enumeration order). -/
inductive FsNode where
  | file (content : Bytes)
  | dir (children : List (String × FsNode))

abbrev Children := List (String × FsNode)

/-- First child with the given name (names are unique in every tree the
code builds, so first-match lookup models directory lookup). -/
def lookupChild : Children → String → Option FsNode
  | [], _ => none
  | (n, x) :: rest, name => if n = name then some x else lookupChild rest name

/-- Replace the named child in place, or append it. -/
def setChild : Children → String → FsNode → Children
  | [], name, x => [(name, x)]
  | (n, y) :: rest, name, x =>
    if n = name then (n, x) :: rest else (n, y) :: setChild rest name x

/-- Remove the named child (`fs::remove_file` / `remove_dir_all` on a
directory entry). -/
def eraseChild : Children → String → Children
  | [], _ => []
  | (n, y) :: rest, name => if n = name then rest else (n, y) :: eraseChild rest name

/-- Occupant of a path in the tree (`None` when nothing exists there,
also when an ancestor is missing or is a file). -/
def lookupAt : FsNode → List String → Option FsNode
  | w, [] => some w
  | w, n :: rest =>
    match w with
    | .file _ => none
    | .dir cs =>
      match lookupChild cs n with
      | none => none
      | some c => lookupAt c rest

/-- Replace (`some`) or delete (`none`) the occupant of a path,
creating intermediate directories if needed; deleting through a missing
or file-blocked ancestor leaves the tree unchanged. -/
def setAt : FsNode → List String → Option FsNode → FsNode
  | w, [], new => new.getD w
  | w, [n], new =>
    match w with
    | .file c => .file c
    | .dir cs =>
      match new with
      | some x => .dir (setChild cs n x)
      | none => .dir (eraseChild cs n)
  | w, n :: m :: rest, new =>
    match w with
    | .file c => .file c
    | .dir cs =>
      match lookupChild cs n with
      | some c => .dir (setChild cs n (setAt c (m :: rest) new))
      | none =>
        match new with
        | some _ => .dir (setChild cs n (setAt (.dir []) (m :: rest) new))
        | none => .dir cs

/-- The error kinds of `std::io::Error` the model can produce. -/
inductive IoErr where
  | notFound | isADirectory | notADirectory | alreadyExists | other
deriving DecidableEq

/-- `ser::Error` (src/ser.rs lines 13-19). -/
inductive SerError where
  | ioError (e : IoErr)
  | keyMustBeAString
  | custom (msg : String)
deriving DecidableEq

/-- `de::Error` (src/de.rs lines 9-27). -/
inductive DeError where
  | ioError (e : IoErr)
  | parseBoolError
  | parseIntError
  | parseFloatError
  | empty
  | fileNotFound
  | unsupported
  | invalidLen (expected got : Nat)
  | invalidEnum (text : Bytes)
  | custom (msg : String)
deriving DecidableEq

/-- Model of `fs::create_dir_all`: make every component of the path a
directory, failing if a regular file is in the way (including at the
final component, matching `create_dir_all` on an existing file). -/
def createDirAll : FsNode → List String → Except SerError FsNode
  | w, [] =>
    match w with
    | .file _ => .error (.ioError .alreadyExists)
    | .dir cs => .ok (.dir cs)
  | w, n :: rest =>
    match w with
    | .file _ => .error (.ioError .notADirectory)
    | .dir cs =>
      match lookupChild cs n with
      | some c => do
        let c' ← createDirAll c rest
        .ok (.dir (setChild cs n c'))
      | none => do
        let c' ← createDirAll (.dir []) rest
        .ok (.dir (setChild cs n c'))

/-- True when nothing blocks `create_dir_all` along the path: every
component that already exists is a directory. -/
def pathClear : FsNode → List String → Bool
  | w, [] =>
    match w with
    | .file _ => false
    | .dir _ => true
  | w, n :: rest =>
    match w with
    | .file _ => false
    | .dir cs =>
      match lookupChild cs n with
      | none => true
      | some c => pathClear c rest

/-- The serde data model as driven through the codec: every value shape
the `Serializer` / `Deserializer` impls handle.  Strings and byte
buffers both carry raw bytes (file contents are written verbatim);
`vInt` covers the integer scalars (i8..u64), whose text conversions are
exact; floats are excluded (spec section 1 treats the primitive
numeric text conversions as external). -/
inductive Value where
  | vBool (b : Bool)
  | vInt (n : Int)
  | vChar (c : Char)
  | vStr (s : Bytes)
  | vBytes (bs : Bytes)
  | vUnit
  | vNone
  | vSome (v : Value)
  | vSeq (xs : List Value)
  | vTuple (xs : List Value)
  | vMap (entries : List (String × Value))
  | vStruct (fields : List (String × Value))
  | vUnitVariant (name : String)
  | vNewtypeVariant (name : String) (payload : Value)
  | vTupleVariant (name : String) (xs : List Value)
  | vStructVariant (name : String) (fields : List (String × Value))

mutual
/-- The shape a deserialization call requests (the serde type being
deserialized): what drives which `deserialize_*` method runs. -/
inductive Shape where
  | sBool | sInt | sChar | sStr | sBytes | sUnit
  | sOption (s : Shape)
  | sSeq (s : Shape)
  | sTuple (ss : List Shape)
  | sMap (s : Shape)
  | sStruct (fields : List (String × Shape))
  | sEnum (variants : List (String × VariantShape))
/-- Declared payload shape of one enum variant. -/
inductive VariantShape where
  | unitV
  | newtypeV (s : Shape)
  | tupleV (ss : List Shape)
  | structV (fields : List (String × Shape))
end

/-- Reconciliation scan of `FilesystemSequenceSerializer::new`
(src/ser.rs lines 44-51): every entry whose name parses as `usize` is
removed with `fs::remove_file`, which fails when the entry is a
directory; other entries are kept. -/
def reconcileSeq : Children → Except SerError Children
  | [] => .ok []
  | (n, x) :: rest =>
    match parseUsize n, x with
    | some _, .file _ => reconcileSeq rest
    | some _, .dir _ => .error (.ioError .isADirectory)
    | none, _ => do
      let rest' ← reconcileSeq rest
      .ok ((n, x) :: rest')

/-- Start state of a sequence/tuple serializer at a path occupant:
reconcile a directory, delete a file, then `create_dir_all`
(src/ser.rs lines 44-59). -/
def seqSerInit : Option FsNode → Except SerError Children
  | some (.dir cs) => reconcileSeq cs
  | some (.file _) => .ok []
  | none => .ok []

/-- Start state of a map/struct serializer at a path occupant: delete a
file, keep a directory's children, then `create_dir_all`
(src/ser.rs lines 68-76). -/
def mapSerInit : Option FsNode → Children
  | some (.dir cs) => cs
  | some (.file _) => []
  | none => []

/-- The directory children `serialize_newtype_variant` starts from
(src/ser.rs lines 483-497): for a directory occupant, drop the child
named variant if it is a regular file and drop the child named value
(file or directory); a file occupant is removed; then
`create_dir_all`. -/
def newtypeVariantInit (old : Option FsNode) : Children :=
  match old with
  | some (.dir cs) =>
    let cs1 :=
      match lookupChild cs "variant" with
      | some (.file _) => eraseChild cs "variant"
      | _ => cs
    match lookupChild cs1 "value" with
    | some _ => eraseChild cs1 "value"
    | none => cs1
  | _ => []

mutual
/-- Effect of `value.serialize(FilesystemSerializer { path })` on the
occupant of `path`: `none` means the path does not exist.  Each arm
mirrors the corresponding `Serializer` method of src/ser.rs; ancestor
directory creation is handled by the world-level wrapper `serializeW`.
Fails only where the code does: reconciliation hitting an
integer-named directory. -/
def serNode : Option FsNode → Value → Except SerError (Option FsNode)
  | _, .vBool b => .ok (some (.file (if b then strBytes "true" else strBytes "false")))
  | _, .vInt n => .ok (some (.file (intBytes n)))
  | _, .vChar c => .ok (some (.file (utf8Bytes c)))
  | _, .vStr s => .ok (some (.file s))
  | _, .vBytes bs => .ok (some (.file bs))
  | _, .vUnit => .ok (some (.file []))
  | _, .vNone => .ok none
  | old, .vSome v => serNode old v
  | old, .vSeq xs => do
    let cs ← seqSerInit old
    let cs' ← serElems cs 0 xs
    .ok (some (.dir cs'))
  | old, .vTuple xs => do
    let cs ← seqSerInit old
    let cs' ← serElems cs 0 xs
    .ok (some (.dir cs'))
  | old, .vMap entries => do
    let cs' ← serEntries (mapSerInit old) entries
    .ok (some (.dir cs'))
  | old, .vStruct fields => do
    let cs' ← serEntries (mapSerInit old) fields
    .ok (some (.dir cs'))
  | _, .vUnitVariant name => .ok (some (.file (strBytes name)))
  | old, .vNewtypeVariant name payload => do
    let cs := setChild (newtypeVariantInit old) "variant" (.file (strBytes name))
    let v? ← serNode (lookupChild cs "value") payload
    match v? with
    | some x => .ok (some (.dir (setChild cs "value" x)))
    | none => .ok (some (.dir (eraseChild cs "value")))
  | old, .vTupleVariant name xs => do
    -- src/ser.rs lines 514-518: sequence init, then the variant marker,
    -- then the elements
    let cs ← seqSerInit old
    let cs := setChild cs "variant" (.file (strBytes name))
    let cs' ← serElems cs 0 xs
    .ok (some (.dir cs'))
  | old, .vStructVariant name fields => do
    -- src/ser.rs lines 528-532: map init, then the variant marker,
    -- then the fields
    let cs := mapSerInit old
    let cs := setChild cs "variant" (.file (strBytes name))
    let cs' ← serEntries cs fields
    .ok (some (.dir cs'))
termination_by structural old v => v

/-- `serialize_element` loop of `FilesystemSequenceSerializer`
(src/ser.rs lines 81-86): element `i` is serialized at child name
`natToStr i`; an element whose serialization deletes its path (a none)
erases the child. -/
def serElems : Children → Nat → List Value → Except SerError Children
  | cs, _, [] => .ok cs
  | cs, i, v :: vs => do
    let n? ← serNode (lookupChild cs (natToStr i)) v
    match n? with
    | some x => serElems (setChild cs (natToStr i) x) (i+1) vs
    | none => serElems (eraseChild cs (natToStr i)) (i+1) vs
termination_by structural cs i vs => vs

/-- `serialize_entry` / `serialize_field` loop of
`FilesystemMapSerializer` (src/ser.rs lines 305-315, 328-331): each
value is serialized at the child named by the key. -/
def serEntries : Children → List (String × Value) → Except SerError Children
  | cs, [] => .ok cs
  | cs, (k, v) :: rest => do
    let n? ← serNode (lookupChild cs k) v
    match n? with
    | some x => serEntries (setChild cs k x) rest
    | none => serEntries (eraseChild cs k) rest
termination_by structural cs l => l
end

/-- World-level `value.serialize(FilesystemSerializer::new(path))`,
the effect of `to_fs(path, value)` (src/lib.rs lines 44-48) on the
whole filesystem: `serialize_none` only deletes; everything else
ensures the ancestor directories exist (`create_dir_all` inside
`write_to_file` or the compound constructors) and replaces the
occupant of `path`. -/
def serializeW (w : FsNode) (p : List String) : Value → Except SerError FsNode
  | .vNone => .ok (setAt w p none)
  | .vSome x => serializeW w p x
  | v => do
    let w' ← createDirAll w p.dropLast
    let n? ← serNode (lookupAt w' p) v
    .ok (setAt w' p n?)
termination_by structural v => v

/-- Final segment of a path (the file name). -/
def lastName : List String -> String
  | [] => ""
  | [n] => n
  | _ :: m :: rest => lastName (m :: rest)

/-- Model of `fs::File::create(p)` creating or truncating a file with
the given content: the parent must exist and be a directory, and the
target must not be a directory. -/
def createFileW (w : FsNode) (p : List String) (content : Bytes) : Except SerError FsNode :=
  match p with
  | [] => .error (.ioError .isADirectory)
  | _ :: _ =>
    match lookupAt w p.dropLast with
    | some (.dir cs) =>
      match lookupChild cs (lastName p) with
      | some (.dir _) => .error (.ioError .isADirectory)
      | _ => .ok (setAt w p (some (.file content)))
    | some (.file _) => .error (.ioError .notADirectory)
    | none => .error (.ioError .notFound)

/-- A map key value as seen by `MapKeySerializer` (src/ser.rs lines
153-281): only `serialize_str` succeeds; every other data-model shape
(numbers, bools, composites, ...) answers `KeyMustBeAString`. -/
inductive KeyValue where
  | kStr (s : String)
  | kNonStr

/-- `key.serialize(MapKeySerializer)`. -/
def mapKeyToString : KeyValue → Except SerError String
  | .kStr s => .ok s
  | .kNonStr => .error .keyMustBeAString

/-- The mutable state of a `FilesystemMapSerializer`: its path and the
pending key. -/
structure MapSerSt where
  path : List String
  key : Option String

/-- `FilesystemMapSerializer::serialize_key` (src/ser.rs lines
287-294): render the key, `create_dir_all(&self.path)`, then
`fs::File::create(&key)` — a relative path, resolved against the
process working directory `cwd`, not against `self.path`. -/
def serializeKeyOp (w : FsNode) (cwd : List String) (st : MapSerSt) (k : KeyValue) :
    Except SerError (FsNode × MapSerSt) := do
  let key ← mapKeyToString k
  let w ← createDirAll w st.path
  let w ← createFileW w (cwd ++ [key]) []
  .ok (w, { st with key := some key })

/-- `FilesystemMapSerializer::serialize_value` (src/ser.rs lines
296-303): take the pending key or fail with `KeyMustBeAString`, then
serialize the value at `self.path.join(key)`. -/
def serializeValueOp (w : FsNode) (st : MapSerSt) (v : Value) :
    Except SerError (FsNode × MapSerSt) :=
  match st.key with
  | none => .error .keyMustBeAString
  | some key => do
    let w ← serializeW w (st.path ++ [key]) v
    .ok (w, { st with key := none })

/-- `FilesystemMapSerializer::serialize_entry` (src/ser.rs lines
305-315): render the key and serialize the value at
`self.path.join(key)` directly (no stray file, key state untouched). -/
def serializeEntryOp (w : FsNode) (st : MapSerSt) (k : KeyValue) (v : Value) :
    Except SerError (FsNode × MapSerSt) := do
  let key ← mapKeyToString k
  let w ← serializeW w (st.path ++ [key]) v
  .ok (w, st)

/-- Occupant of `path.join(name)` given the occupant of `path`. -/
def childOf : Option FsNode → String → Option FsNode
  | some (.dir cs), name => lookupChild cs name
  | _, _ => none

def childCount : Option FsNode → Nat
  | some (.dir cs) => cs.length
  | _ => 0

/-- Directory entry names in enumeration order (`fs::read_dir`). -/
def namesOf : Option FsNode → List String
  | some (.dir cs) => cs.map Prod.fst
  | _ => []

/-- Model of `string_from_file` / `bytes_from_file` (src/de.rs lines
46-58): `File::open` on a missing path is the io NotFound error, and
reading a directory is the io IsADirectory error (UTF-8 validation of
`read_to_string` is not modelled; contents are returned as bytes). -/
def fileContentD : Option FsNode → Except DeError Bytes
  | none => .error (.ioError .notFound)
  | some (.dir _) => .error (.ioError .isADirectory)
  | some (.file c) => .ok c

/-- The variant-matching loop of `deserialize_enum` (src/de.rs lines
226-235): first declared variant whose name equals the discriminant
bytes, by exact byte equality. -/
def findVariant : List (String × VariantShape) → Bytes → Option (String × VariantShape)
  | [], _ => none
  | (m, sh) :: rest, d => if strBytes m = d then some (m, sh) else findVariant rest d

theorem lookupChild_sizeOf {cs : Children} {name : String} {c : FsNode}
    (h : lookupChild cs name = some c) : sizeOf c < sizeOf cs := by
  induction cs with
  | nil => exact absurd h (by simp [lookupChild])
  | cons hd rest ih =>
    obtain ⟨n, x⟩ := hd
    rw [lookupChild] at h
    by_cases he : n = name
    · rw [if_pos he] at h
      cases h
      simp
      omega
    · rw [if_neg he] at h
      have := ih h
      simp
      omega

theorem childOf_sizeOf_le (n? : Option FsNode) (name : String) :
    sizeOf (childOf n? name) ≤ sizeOf n? := by
  match n? with
  | none => simp [childOf]
  | some (.file c) =>
    show sizeOf (none : Option FsNode) ≤ _
    simp
  | some (.dir cs) =>
    show sizeOf (lookupChild cs name) ≤ _
    match h : lookupChild cs name with
    | none => simp
    | some c =>
      have := lookupChild_sizeOf h
      simp
      omega

theorem childOf_sizeOf_lt {n? : Option FsNode} {name : String} {c : FsNode}
    (h : childOf n? name = some c) : sizeOf (some c) < sizeOf n? := by
  match n? with
  | none => exact absurd h (by simp [childOf])
  | some (.file b) => exact absurd h (by simp [childOf])
  | some (.dir cs) =>
    rw [childOf] at h
    have := lookupChild_sizeOf h
    simp
    omega

theorem lookupChild_sizeOf_le (cs : Children) (name : String) :
    sizeOf (lookupChild cs name) ≤ 1 + sizeOf cs := by
  match h : lookupChild cs name with
  | none => simp
  | some c =>
    have := lookupChild_sizeOf h
    simp
    omega

theorem findVariant_sizeOf {vs : List (String × VariantShape)} {d : Bytes}
    {m : String} {sh : VariantShape} (h : findVariant vs d = some (m, sh)) :
    sizeOf sh < sizeOf vs := by
  induction vs with
  | nil => exact absurd h (by simp [findVariant])
  | cons hd rest ih =>
    obtain ⟨n, x⟩ := hd
    rw [findVariant] at h
    by_cases he : strBytes n = d
    · rw [if_pos he] at h
      cases h
      simp
      omega
    · rw [if_neg he] at h
      have := ih h
      simp
      omega

mutual
/-- Effect of driving `FilesystemDeserializer { path }` with a request
of the given shape, as a function of the occupant of `path`
(`from_fs`, src/lib.rs lines 78-81).  Each arm mirrors the
corresponding `Deserializer` method of src/de.rs. -/
def deNode : Option FsNode → Shape → Except DeError Value
  | n?, .sBool => do
    let c ← fileContentD n?
    match parseBoolBytes (trimBytes c) with
    | some b => .ok (.vBool b)
    | none => .error .parseBoolError
  | n?, .sInt => do
    let c ← fileContentD n?
    match parseIntBytes (trimBytes c) with
    | some i => .ok (.vInt i)
    | none => .error .parseIntError
  | n?, .sChar =>
    -- src/de.rs lines 130-141: a single byte is read and widened
    match n? with
    | none => .error (.ioError .notFound)
    | some (.dir _) => .error (.ioError .isADirectory)
    | some (.file []) => .error .empty
    | some (.file (b :: _)) => .ok (.vChar (Char.ofNat b))
  | n?, .sStr => do
    let c ← fileContentD n?
    .ok (.vStr c)
  | n?, .sBytes => do
    let c ← fileContentD n?
    .ok (.vBytes c)
  | n?, .sUnit =>
    match n? with
    | some (.file _) => .ok .vUnit
    | _ => .error .fileNotFound
  | n?, .sOption s =>
    -- src/de.rs lines 163-170
    match n? with
    | none => .ok .vNone
    | some x => do
      let v ← deNode (some x) s
      .ok (.vSome v)
  | n?, .sSeq s => do
    let vs ← deSeqLoop n? s 0 (childCount n? + 1)
    .ok (.vSeq vs)
  | n?, .sTuple ss => do
    let vs ← deTupleLoop n? ss.length ss 0
    .ok (.vTuple vs)
  | n?, .sMap s =>
    match n? with
    | none => .error (.ioError .notFound)
    | some (.file _) => .error (.ioError .notADirectory)
    | some (.dir cs) => do
      let es ← deMapLoop cs s (namesOf (some (.dir cs)))
      .ok (.vMap es)
  | n?, .sStruct fields => do
    let es ← deFieldsLoop n? fields
    .ok (.vStruct es)
  | n?, .sEnum vs =>
    -- src/de.rs lines 218-237
    match n? with
    | none => .error (.ioError .notFound)
    | some (.dir cs) => do
      let d ← fileContentD (lookupChild cs "variant")
      match hfv : findVariant vs d with
      | none => .error (.invalidEnum d)
      | some (m, .unitV) => .ok (.vUnitVariant m)
      | some (m, .newtypeV s) => do
        have hsz : sizeOf (VariantShape.newtypeV s) < sizeOf vs := findVariant_sizeOf hfv
        have hsz' : 1 + sizeOf s < sizeOf vs := by
          have : sizeOf (VariantShape.newtypeV s) = 1 + sizeOf s := by simp
          omega
        have hlc : sizeOf (lookupChild cs "value") ≤ 1 + sizeOf cs :=
          lookupChild_sizeOf_le cs "value"
        let v ← deNode (lookupChild cs "value") s
        .ok (.vNewtypeVariant m v)
      | some (m, .tupleV ss) => do
        have hsz : sizeOf (VariantShape.tupleV ss) < sizeOf vs := findVariant_sizeOf hfv
        have hsz' : 1 + sizeOf ss < sizeOf vs := by
          have : sizeOf (VariantShape.tupleV ss) = 1 + sizeOf ss := by simp
          omega
        let xs ← deTupleLoop (some (.dir cs)) ss.length ss 0
        .ok (.vTupleVariant m xs)
      | some (m, .structV fields) => do
        have hsz : sizeOf (VariantShape.structV fields) < sizeOf vs := findVariant_sizeOf hfv
        have hsz' : 1 + sizeOf fields < sizeOf vs := by
          have : sizeOf (VariantShape.structV fields) = 1 + sizeOf fields := by simp
          omega
        let es ← deFieldsLoop (some (.dir cs)) fields
        .ok (.vStructVariant m es)
    | some (.file d) =>
      match findVariant vs d with
      | none => .error (.invalidEnum d)
      | some (m, .unitV) => .ok (.vUnitVariant m)
      | some (_, _) => .error (.custom "invalid type")
  termination_by n? s => (sizeOf n? + sizeOf s, 0)

/-- `SeqAccess::next_element_seed` loop with `len = None`
(src/de.rs lines 259-275): children 0, 1, ... while they exist.  The
fuel starts above the child count, which the contiguous indices can
never reach, so the 0 arm is unreachable. -/
def deSeqLoop (n? : Option FsNode) (s : Shape) : Nat → Nat → Except DeError (List Value)
  | _, 0 => .ok []
  | i, fuel+1 =>
    match h : childOf n? (natToStr i) with
    | none => .ok []
    | some c => do
      have hsz : 1 + sizeOf c < sizeOf n? := by
        have := childOf_sizeOf_lt h
        simpa using this
      let v ← deNode (some c) s
      let vs ← deSeqLoop n? s (i+1) fuel
      .ok (v :: vs)
  termination_by i fuel => (sizeOf n? + sizeOf s, fuel)

/-- `SeqAccess::next_element_seed` with `len = Some total`: the serde
tuple visitor makes exactly one call per component; a missing index
with `counter ≠ len` is `InvalidLen { expected: len, got: counter }`
(src/de.rs lines 259-275). -/
def deTupleLoop (n? : Option FsNode) (total : Nat) : List Shape → Nat → Except DeError (List Value)
  | [], _ => .ok []
  | s :: rest, i =>
    match h : childOf n? (natToStr i) with
    | none => .error (.invalidLen total i)
    | some c => do
      have hsz : 1 + sizeOf c < sizeOf n? := by
        have := childOf_sizeOf_lt h
        simpa using this
      let v ← deNode (some c) s
      let vs ← deTupleLoop n? total rest (i+1)
      .ok (v :: vs)
  termination_by ss i => (sizeOf n? + sizeOf ss, 0)

/-- `MapAccess` loop of `deserialize_map` (src/de.rs lines 328-339,
350-375): over the children `cs` of the directory at `path`, each
entry name is a key, and the value is decoded at `path.join(key)`. -/
def deMapLoop (cs : Children) (s : Shape) : List String → Except DeError (List (String × Value))
  | [] => .ok []
  | k :: rest => do
    have hsz : sizeOf (lookupChild cs k) ≤ 1 + sizeOf cs := lookupChild_sizeOf_le cs k
    let v ← deNode (lookupChild cs k) s
    let es ← deMapLoop cs s rest
    .ok ((k, v) :: es)
  termination_by names => (2 + sizeOf cs + sizeOf s, names.length)

/-- `MapAccess` loop of `deserialize_struct` (src/de.rs lines 213-216):
the declared field names are the keys, each value decoded at
`path.join(field)`. -/
def deFieldsLoop (n? : Option FsNode) : List (String × Shape) → Except DeError (List (String × Value))
  | [] => .ok []
  | (f, s) :: rest => do
    have hsz : sizeOf (childOf n? f) ≤ sizeOf n? := childOf_sizeOf_le n? f
    let v ← deNode (childOf n? f) s
    let es ← deFieldsLoop n? rest
    .ok ((f, v) :: es)
  termination_by fields => (sizeOf n? + sizeOf fields, 0)
end

/-- World-level `T::deserialize(FilesystemDeserializer::new(path))`,
the effect of `from_fs(path)` (src/lib.rs lines 78-81): every read is
a pure function of the occupant of `path`. -/
def deserializeW (w : FsNode) (p : List String) (s : Shape) : Except DeError Value :=
  deNode (lookupAt w p) s

mutual
/-- Well-formed tree: every directory's child names are distinct (true
of every real filesystem and preserved by all operations here). -/
def wfNode : FsNode → Bool
  | .file _ => true
  | .dir cs => wfChildren cs
termination_by w => sizeOf w

def wfChildren : Children → Bool
  | [] => true
  | (n, x) :: rest => (lookupChild rest n).isNone && wfNode x && wfChildren rest
termination_by cs => sizeOf cs
end

theorem lookupChild_setChild_self (cs : Children) (n : String) (x : FsNode) :
    lookupChild (setChild cs n x) n = some x := by
  induction cs with
  | nil => simp [setChild, lookupChild]
  | cons hd rest ih =>
    obtain ⟨m, y⟩ := hd
    by_cases he : m = n
    · simp [setChild, lookupChild, he]
    · simp [setChild, lookupChild, he, ih]

theorem lookupChild_setChild_other (cs : Children) (n m : String) (x : FsNode)
    (h : m ≠ n) : lookupChild (setChild cs n x) m = lookupChild cs m := by
  have hnm : n ≠ m := Ne.symm h
  induction cs with
  | nil => simp [setChild, lookupChild, hnm]
  | cons hd rest ih =>
    obtain ⟨k, y⟩ := hd
    by_cases he : k = n
    · subst he
      rw [setChild, if_pos rfl, lookupChild, lookupChild, if_neg hnm, if_neg hnm]
    · rw [setChild, if_neg he, lookupChild, lookupChild]
      by_cases he2 : k = m
      · rw [if_pos he2, if_pos he2]
      · rw [if_neg he2, if_neg he2, ih]

theorem lookupChild_eraseChild_other (cs : Children) (n m : String)
    (h : m ≠ n) : lookupChild (eraseChild cs n) m = lookupChild cs m := by
  have hnm : n ≠ m := Ne.symm h
  induction cs with
  | nil => simp [eraseChild]
  | cons hd rest ih =>
    obtain ⟨k, y⟩ := hd
    by_cases he : k = n
    · subst he
      rw [eraseChild, if_pos rfl, lookupChild, if_neg hnm]
    · rw [eraseChild, if_neg he, lookupChild, lookupChild]
      by_cases he2 : k = m
      · rw [if_pos he2, if_pos he2]
      · rw [if_neg he2, if_neg he2, ih]

theorem lookupChild_eraseChild_self {cs : Children} (hwf : wfChildren cs = true)
    (n : String) : lookupChild (eraseChild cs n) n = none := by
  induction cs with
  | nil => simp [eraseChild, lookupChild]
  | cons hd rest ih =>
    obtain ⟨k, y⟩ := hd
    rw [wfChildren] at hwf
    simp only [Bool.and_eq_true] at hwf
    by_cases he : k = n
    · subst he
      rw [eraseChild, if_pos rfl]
      have := hwf.1.1
      exact Option.isNone_iff_eq_none.mp this
    · rw [eraseChild, if_neg he, lookupChild, if_neg he]
      exact ih hwf.2

theorem setChild_self {cs : Children} {n : String} {c : FsNode}
    (h : lookupChild cs n = some c) : setChild cs n c = cs := by
  induction cs with
  | nil => exact absurd h (by simp [lookupChild])
  | cons hd rest ih =>
    obtain ⟨k, y⟩ := hd
    rw [lookupChild] at h
    by_cases he : k = n
    · rw [if_pos he] at h
      cases h
      rw [setChild, if_pos he]
    · rw [if_neg he] at h
      rw [setChild, if_neg he, ih h]

theorem lookupAt_parent_dir {w : FsNode} {p : List String} {x : FsNode}
    (h : lookupAt w p = some x) (hp : p ≠ []) :
    ∃ cs, lookupAt w p.dropLast = some (.dir cs) ∧
      lookupChild cs (lastName p) = some x := by
  induction p generalizing w with
  | nil => exact absurd rfl hp
  | cons n rest ih =>
    match w with
    | .file c => exact absurd h (by simp [lookupAt])
    | .dir cs =>
      rw [lookupAt] at h
      match hc : lookupChild cs n with
      | none => rw [hc] at h; exact Option.noConfusion h
      | some c =>
        rw [hc] at h
        match rest with
        | [] =>
          simp only [lookupAt, Option.some.injEq] at h
          subst h
          exact ⟨cs, by simp [lookupAt], by simpa [lastName] using hc⟩
        | m :: rest' =>
          obtain ⟨cs', h1, h2⟩ := ih h (by simp)
          refine ⟨cs', ?_, ?_⟩
          · rw [show (n :: m :: rest').dropLast = n :: (m :: rest').dropLast from rfl]
            rw [lookupAt, hc]
            exact h1
          · simpa [lastName] using h2

theorem wfChildren_lookup {cs : Children} {n : String} {c : FsNode}
    (hwf : wfChildren cs = true) (h : lookupChild cs n = some c) : wfNode c = true := by
  induction cs with
  | nil => exact absurd h (by simp [lookupChild])
  | cons hd rest ih =>
    obtain ⟨k, y⟩ := hd
    rw [wfChildren] at hwf
    simp only [Bool.and_eq_true] at hwf
    rw [lookupChild] at h
    by_cases he : k = n
    · rw [if_pos he] at h
      cases h
      exact hwf.1.2
    · rw [if_neg he] at h
      exact ih hwf.2 h

theorem pathClear_emptyDir (rest : List String) : pathClear (.dir []) rest = true := by
  cases rest with
  | nil => rfl
  | cons m r => simp [pathClear, lookupChild]

theorem lookupAt_emptyDir_append (l : List String) (x : String) :
    lookupAt (.dir []) (l ++ [x]) = none := by
  cases l with
  | nil => simp [lookupAt, lookupChild]
  | cons m r => simp [lookupAt, lookupChild]

theorem createDirAll_of_pathClear {w : FsNode} {q : List String}
    (h : pathClear w q = true) :
    ∃ w', createDirAll w q = .ok w' ∧ ∃ cs, lookupAt w' q = some (.dir cs) := by
  induction q generalizing w with
  | nil =>
    match w with
    | .file c => exact absurd h (by simp [pathClear])
    | .dir cs => exact ⟨.dir cs, rfl, cs, rfl⟩
  | cons n rest ih =>
    match w with
    | .file c => exact absurd h (by simp [pathClear])
    | .dir cs =>
      rw [pathClear] at h
      match hc : lookupChild cs n with
      | some c =>
        rw [hc] at h
        obtain ⟨c', hc', cs', hcs'⟩ := ih h
        refine ⟨.dir (setChild cs n c'), ?_, cs', ?_⟩
        · rw [createDirAll, hc]
          simp [hc', Bind.bind, Except.bind]
        · rw [lookupAt, lookupChild_setChild_self]
          exact hcs'
      | none =>
        obtain ⟨c', hc', cs', hcs'⟩ := ih (pathClear_emptyDir rest)
        refine ⟨.dir (setChild cs n c'), ?_, cs', ?_⟩
        · rw [createDirAll, hc]
          simp [hc', Bind.bind, Except.bind]
        · rw [lookupAt, lookupChild_setChild_self]
          exact hcs'

theorem createDirAll_id {w : FsNode} {q : List String} {cs : Children}
    (h : lookupAt w q = some (.dir cs)) : createDirAll w q = .ok w := by
  induction q generalizing w with
  | nil =>
    simp only [lookupAt, Option.some.injEq] at h
    subst h
    rfl
  | cons n rest ih =>
    match w with
    | .file c => exact absurd h (by simp [lookupAt])
    | .dir cs' =>
      rw [lookupAt] at h
      match hc : lookupChild cs' n with
      | none => rw [hc] at h; exact Option.noConfusion h
      | some c =>
        rw [hc] at h
        rw [createDirAll, hc]
        simp only [ih h, Bind.bind, Except.bind]
        rw [setChild_self hc]

theorem lookupAt_createDirAll {w w' : FsNode} {q : List String}
    (h : createDirAll w q = .ok w') (x : String) :
    lookupAt w' (q ++ [x]) = lookupAt w (q ++ [x]) := by
  induction q generalizing w w' with
  | nil =>
    match w with
    | .file c => exact absurd h (by rw [createDirAll]; intro hcontra; exact Except.noConfusion hcontra)
    | .dir cs =>
      rw [createDirAll] at h
      cases h
      rfl
  | cons n rest ih =>
    match w with
    | .file c => exact absurd h (by rw [createDirAll]; intro hcontra; exact Except.noConfusion hcontra)
    | .dir cs =>
      rw [createDirAll] at h
      match hc : lookupChild cs n with
      | some c =>
        rw [hc] at h
        match hcc : createDirAll c rest with
        | .error e =>
          simp only [hcc, Bind.bind, Except.bind] at h
          exact Except.noConfusion h
        | .ok c' =>
          simp only [hcc, Bind.bind, Except.bind, Except.ok.injEq] at h
          subst h
          rw [show (n :: rest) ++ [x] = n :: (rest ++ [x]) from rfl]
          rw [lookupAt, lookupAt, lookupChild_setChild_self, hc]
          exact ih hcc
      | none =>
        rw [hc] at h
        match hcc : createDirAll (.dir []) rest with
        | .error e =>
          simp only [hcc, Bind.bind, Except.bind] at h
          exact Except.noConfusion h
        | .ok c' =>
          simp only [hcc, Bind.bind, Except.bind, Except.ok.injEq] at h
          subst h
          rw [show (n :: rest) ++ [x] = n :: (rest ++ [x]) from rfl]
          rw [lookupAt, lookupAt, lookupChild_setChild_self, hc]
          show lookupAt c' (rest ++ [x]) = none
          rw [ih hcc, lookupAt_emptyDir_append]

theorem lookupAt_setAt_self {w : FsNode} {p : List String} (x : FsNode)
    (h : ∃ cs, lookupAt w p.dropLast = some (.dir cs)) :
    lookupAt (setAt w p (some x)) p = some x := by
  induction p generalizing w with
  | nil => rfl
  | cons n rest ih =>
    obtain ⟨cs0, hcs0⟩ := h
    match rest with
    | [] =>
      simp only [List.dropLast, lookupAt, Option.some.injEq] at hcs0
      subst hcs0
      rw [show setAt (.dir cs0) [n] (some x) = .dir (setChild cs0 n x) from rfl]
      rw [lookupAt, lookupChild_setChild_self]
      rfl
    | m :: rest' =>
      match w with
      | .file c => exact absurd hcs0 (by simp [lookupAt])
      | .dir cs =>
        rw [show (n :: m :: rest').dropLast = n :: (m :: rest').dropLast from rfl] at hcs0
        rw [lookupAt] at hcs0
        match hc : lookupChild cs n with
        | none => rw [hc] at hcs0; exact Option.noConfusion hcs0
        | some c =>
          rw [hc] at hcs0
          rw [show setAt (.dir cs) (n :: m :: rest') (some x) =
            match lookupChild cs n with
            | some c => .dir (setChild cs n (setAt c (m :: rest') (some x)))
            | none => .dir (setChild cs n (setAt (.dir []) (m :: rest') (some x))) from rfl]
          rw [hc]
          rw [lookupAt, lookupChild_setChild_self]
          exact ih ⟨cs0, hcs0⟩

theorem setAt_file (c : Bytes) {p : List String} (hp : p ≠ []) (new : Option FsNode) :
    setAt (.file c) p new = .file c := by
  match p with
  | [] => exact absurd rfl hp
  | [n] => rfl
  | n :: m :: rest => rfl

theorem lookupAt_setAt_none {w : FsNode} {p : List String}
    (hwf : wfNode w = true) (hp : p ≠ []) :
    lookupAt (setAt w p none) p = none := by
  induction p generalizing w with
  | nil => exact absurd rfl hp
  | cons n rest ih =>
    match w with
    | .file c =>
      rw [setAt_file c (by simp) none]
      simp [lookupAt]
    | .dir cs =>
      rw [wfNode] at hwf
      match rest with
      | [] =>
        rw [show setAt (.dir cs) [n] none = .dir (eraseChild cs n) from rfl]
        rw [lookupAt, lookupChild_eraseChild_self hwf]
      | m :: rest' =>
        rw [show setAt (.dir cs) (n :: m :: rest') none =
          match lookupChild cs n with
          | some c => .dir (setChild cs n (setAt c (m :: rest') none))
          | none => .dir cs from rfl]
        match hc : lookupChild cs n with
        | none => rw [lookupAt, hc]
        | some c =>
          rw [lookupAt, lookupChild_setChild_self]
          exact ih (wfChildren_lookup hwf hc) (by simp)

theorem wfNode_lookupAt {w : FsNode} {p : List String} {x : FsNode}
    (hwf : wfNode w = true) (h : lookupAt w p = some x) : wfNode x = true := by
  induction p generalizing w with
  | nil =>
    simp only [lookupAt, Option.some.injEq] at h
    subst h
    exact hwf
  | cons n rest ih =>
    match w with
    | .file c => exact absurd h (by simp [lookupAt])
    | .dir cs =>
      rw [lookupAt] at h
      match hc : lookupChild cs n with
      | none => rw [hc] at h; exact Option.noConfusion h
      | some c =>
        rw [hc] at h
        exact ih (wfChildren_lookup (by rw [wfNode] at hwf; exact hwf) hc) h

/-- Canonical text of a scalar value: the file content its
serialization writes. -/
def scalarBytes : Value → Option Bytes
  | .vBool b => some (if b then strBytes "true" else strBytes "false")
  | .vInt n => some (intBytes n)
  | .vChar c => some (utf8Bytes c)
  | .vStr s => some s
  | .vBytes bs => some bs
  | .vUnit => some []
  | _ => none

/-- Children written for elements starting at index `i`. -/
def idxPairs : Nat → List FsNode → Children
  | _, [] => []
  | i, nd :: nds => (natToStr i, nd) :: idxPairs (i+1) nds

/-- The node a fresh-path serialization of a value produces (meaningful
when `serNode none v` succeeds with a node, as the theorems require). -/
def canonNode (v : Value) : FsNode :=
  match serNode none v with
  | .ok (some nd) => nd
  | _ => .file []

/-- Whether `p` lies inside the subtree rooted at `root` (`root` is an
initial segment of `p`). -/
def isUnder : List String → List String → Bool
  | _, [] => true
  | [], _ :: _ => false
  | a :: p, b :: q => a = b && isUnder p q

/-- C9: in a map serialization, calling serialize_value with no pending
key (no preceding successful serialize_key) fails with the
KeyMustBeAString error, not a dedicated missing-key error
(src/ser.rs lines 296-303). -/
theorem c9_serialize_value_without_key (w : FsNode) (p : List String) (v : Value) :
    serializeValueOp w { path := p, key := none } v = .error .keyMustBeAString := rfl

/-- C5 counterexample: decoding a missing path as a required bool does
not fail with the dedicated FileNotFound error; it fails with the
wrapped io NotFound error (`File::open` inside `string_from_file`,
src/de.rs lines 46-51, converted by the IoError From-impl). -/
theorem c5_counterexample :
    deserializeW (.dir []) ["x"] .sBool = .error (.ioError .notFound) ∧
      DeError.ioError .notFound ≠ DeError.fileNotFound := by
  constructor
  · simp [deserializeW, lookupAt, lookupChild, deNode, fileContentD, Bind.bind, Except.bind]
  · decide

/-- C5 amended: decoding a missing path as a required scalar such as
bool or an integer fails with the IoError wrapping the underlying
not-found error; the deserializer's distinct FileNotFound variant is
what unit (and unit-struct / deserialize_any) produce for a missing
path (src/de.rs lines 75-78, 46-51, 172-179). -/
theorem c5_missing_scalar_io_error (w : FsNode) (p : List String)
    (h : lookupAt w p = none) :
    deserializeW w p .sBool = .error (.ioError .notFound) ∧
    deserializeW w p .sInt = .error (.ioError .notFound) ∧
    deserializeW w p .sUnit = .error .fileNotFound := by
  refine ⟨?_, ?_, ?_⟩ <;>
    simp [deserializeW, h, deNode, fileContentD, Bind.bind, Except.bind]

theorem c5_missing_scalar_io_error_witness :
    deserializeW (.dir [("y", .file [49])]) ["x"] .sBool = .error (.ioError .notFound) ∧
    deserializeW (.dir [("y", .file [49])]) ["x"] .sInt = .error (.ioError .notFound) ∧
    deserializeW (.dir [("y", .file [49])]) ["x"] .sUnit = .error .fileNotFound :=
  c5_missing_scalar_io_error (.dir [("y", .file [49])]) ["x"]
    (by simp [lookupAt, lookupChild])

/-- C7: serialize_none deletes whatever occupies the path (file or
directory), leaving the path non-existent; serialize_some serializes
the inner value at the same path with no wrapper; deserialize_option
yields none exactly on a missing path and otherwise some of the value
decoded at that same path (src/ser.rs lines 451-463, src/de.rs lines
163-170). -/
theorem c7_option_semantics (w : FsNode) (p : List String) (x : Value) (s : Shape)
    (hwf : wfNode w = true) (hp : p ≠ []) :
    serializeW w p .vNone = .ok (setAt w p none) ∧
    lookupAt (setAt w p none) p = none ∧
    serializeW w p (.vSome x) = serializeW w p x ∧
    deserializeW w p (.sOption s) =
      (match lookupAt w p with
       | none => .ok .vNone
       | some nd => (deNode (some nd) s).map .vSome) := by
  refine ⟨?_, ?_, ?_, ?_⟩
  · simp [serializeW]
  · exact lookupAt_setAt_none hwf hp
  · simp only [serializeW]
  · rw [deserializeW]
    match hl : lookupAt w p with
    | none => simp [deNode]
    | some nd =>
      match hd : deNode (some nd) s with
      | .error e => simp [deNode, hd, Bind.bind, Except.bind, Except.map]
      | .ok v => simp [deNode, hd, Bind.bind, Except.bind, Except.map]

theorem c7_option_semantics_witness :
    serializeW (.dir [("P", .file [49])]) ["P"] .vNone =
      .ok (setAt (.dir [("P", .file [49])]) ["P"] none) ∧
    lookupAt (setAt (.dir [("P", .file [49])]) ["P"] none) ["P"] = none ∧
    serializeW (.dir [("P", .file [49])]) ["P"] (.vSome (.vBool true)) =
      serializeW (.dir [("P", .file [49])]) ["P"] (.vBool true) ∧
    deserializeW (.dir [("P", .file [49])]) ["P"] (.sOption .sBool) =
      (match lookupAt (.dir [("P", .file [49])]) ["P"] with
       | none => .ok .vNone
       | some nd => (deNode (some nd) .sBool).map .vSome) :=
  c7_option_semantics (.dir [("P", .file [49])]) ["P"] (.vBool true) .sBool
    (by simp [wfNode, wfChildren, lookupChild]) (by simp)

theorem serNode_scalar {v : Value} {c : Bytes} (hv : scalarBytes v = some c)
    (old : Option FsNode) : serNode old v = .ok (some (.file c)) := by
  match v with
  | .vBool b =>
    simp only [scalarBytes, Option.some.injEq] at hv
    subst hv
    simp [serNode]
  | .vInt n =>
    simp only [scalarBytes, Option.some.injEq] at hv
    subst hv
    simp [serNode]
  | .vChar ch =>
    simp only [scalarBytes, Option.some.injEq] at hv
    subst hv
    simp [serNode]
  | .vStr s =>
    simp only [scalarBytes, Option.some.injEq] at hv
    subst hv
    simp [serNode]
  | .vBytes bs =>
    simp only [scalarBytes, Option.some.injEq] at hv
    subst hv
    simp [serNode]
  | .vUnit =>
    simp only [scalarBytes, Option.some.injEq] at hv
    subst hv
    simp [serNode]
  | .vNone | .vSome _ | .vSeq _ | .vTuple _ | .vMap _ | .vStruct _ | .vUnitVariant _
  | .vNewtypeVariant _ _ | .vTupleVariant _ _ | .vStructVariant _ _ =>
    exact absurd hv (by simp [scalarBytes])

/-- The directories `create_dir_all` produces (total helper: identity
when creation fails). -/
def mkDirs (w : FsNode) (q : List String) : FsNode :=
  match createDirAll w q with
  | .ok w' => w'
  | .error _ => w

theorem serializeW_scalar {w : FsNode} {p : List String} {v : Value} {c : Bytes}
    (hv : scalarBytes v = some c) (hclear : pathClear w p.dropLast = true) :
    serializeW w p v = .ok (setAt (mkDirs w p.dropLast) p (some (.file c))) := by
  obtain ⟨w₁, hw₁, cs₁, hcs₁⟩ := createDirAll_of_pathClear hclear
  have hmk : mkDirs w p.dropLast = w₁ := by rw [mkDirs, hw₁]
  match v with
  | .vBool b =>
    simp only [serializeW, hw₁, Bind.bind, Except.bind, serNode_scalar hv, hmk]
  | .vInt n =>
    simp only [serializeW, hw₁, Bind.bind, Except.bind, serNode_scalar hv, hmk]
  | .vChar ch =>
    simp only [serializeW, hw₁, Bind.bind, Except.bind, serNode_scalar hv, hmk]
  | .vStr s =>
    simp only [serializeW, hw₁, Bind.bind, Except.bind, serNode_scalar hv, hmk]
  | .vBytes bs =>
    simp only [serializeW, hw₁, Bind.bind, Except.bind, serNode_scalar hv, hmk]
  | .vUnit =>
    simp only [serializeW, hw₁, Bind.bind, Except.bind, serNode_scalar hv, hmk]
  | .vNone | .vSome _ | .vSeq _ | .vTuple _ | .vMap _ | .vStruct _ | .vUnitVariant _
  | .vNewtypeVariant _ _ | .vTupleVariant _ _ | .vStructVariant _ _ =>
    exact absurd hv (by simp [scalarBytes])

/-- C8: every scalar encode (bool, integer, char, string, bytes, unit)
deletes a directory occupant, creates the missing parent directories,
and creates or overwrites the file with the canonical text (booleans
as the literal words true and false), succeeding regardless of the
previous occupant of the path (src/ser.rs lines 352-364, 377-449,
465-468). -/
theorem c8_scalar_overwrite (w : FsNode) (p : List String) (v : Value) (c : Bytes)
    (hv : scalarBytes v = some c) (hp : p ≠ [])
    (hclear : pathClear w p.dropLast = true) :
    serializeW w p v = .ok (setAt (mkDirs w p.dropLast) p (some (.file c))) ∧
    lookupAt (setAt (mkDirs w p.dropLast) p (some (.file c))) p = some (.file c) ∧
    scalarBytes (.vBool true) = some (strBytes "true") ∧
    scalarBytes (.vBool false) = some (strBytes "false") := by
  obtain ⟨w₁, hw₁, cs₁, hcs₁⟩ := createDirAll_of_pathClear hclear
  have hmk : mkDirs w p.dropLast = w₁ := by rw [mkDirs, hw₁]
  refine ⟨serializeW_scalar hv hclear, ?_, by simp [scalarBytes], by simp [scalarBytes]⟩
  rw [hmk]
  exact lookupAt_setAt_self _ ⟨cs₁, hcs₁⟩

/-- C8 witness: the spec's scenario A, with the second write hitting an
occupied path. -/
theorem c8_scalar_overwrite_witness :
    serializeW (.dir []) ["P"] (.vBool true) = .ok (.dir [("P", .file (strBytes "true"))]) ∧
    serializeW (.dir [("P", .file (strBytes "true"))]) ["P"] (.vBool false) =
      .ok (.dir [("P", .file (strBytes "false"))]) ∧
    lookupAt (.dir [("P", .file (strBytes "false"))]) ["P"] = some (.file (strBytes "false")) := by
  have h1 := c8_scalar_overwrite (.dir []) ["P"] (.vBool true) (strBytes "true")
    (by simp [scalarBytes]) (by simp) (by simp [pathClear])
  have h2 := c8_scalar_overwrite (.dir [("P", .file (strBytes "true"))]) ["P"]
    (.vBool false) (strBytes "false")
    (by simp [scalarBytes]) (by simp) (by simp [pathClear])
  refine ⟨?_, ?_, ?_⟩
  · have := h1.1
    simpa [mkDirs, createDirAll, setAt, setChild, lookupChild] using this
  · have := h2.1
    simpa [mkDirs, createDirAll, setAt, setChild, lookupChild] using this
  · simp [lookupAt, lookupChild]

theorem findVariant_none_of_all_ne {vs : List (String × VariantShape)} {d : Bytes}
    (h : ∀ pr ∈ vs, strBytes pr.1 ≠ d) : findVariant vs d = none := by
  induction vs with
  | nil => rfl
  | cons hd rest ih =>
    obtain ⟨n, sh⟩ := hd
    rw [findVariant, if_neg (h (n, sh) (List.mem_cons_self _ _))]
    exact ih (fun pr hpr => h pr (List.mem_cons_of_mem _ hpr))

theorem findVariant_first_match (vs₁ vs₂ : List (String × VariantShape))
    (n : String) (sh : VariantShape) (d : Bytes) (hn : strBytes n = d)
    (hfirst : ∀ pr ∈ vs₁, strBytes pr.1 ≠ d) :
    findVariant (vs₁ ++ (n, sh) :: vs₂) d = some (n, sh) := by
  induction vs₁ with
  | nil => rw [List.nil_append, findVariant, if_pos hn]
  | cons hd rest ih =>
    obtain ⟨m, sh'⟩ := hd
    rw [List.cons_append, findVariant, if_neg (hfirst (m, sh') (List.mem_cons_self _ _))]
    exact ih (fun pr hpr => hfirst pr (List.mem_cons_of_mem _ hpr))

/-- C6: the enum discriminant is the whole file content when the path
is a file, and the content of the child named variant when the path is
a directory; it is matched against the declared variant names by exact
byte-for-byte (hence case-sensitive) equality with the first match
winning, and with no match the decode fails with InvalidEnum carrying
the discriminant text (src/de.rs lines 218-237). -/
theorem c6_enum_discriminant (w : FsNode) (p : List String)
    (vs : List (String × VariantShape)) (d : Bytes) :
    ((∀ pr ∈ vs, strBytes pr.1 ≠ d) → lookupAt w p = some (.file d) →
       deserializeW w p (.sEnum vs) = .error (.invalidEnum d)) ∧
    ((∀ pr ∈ vs, strBytes pr.1 ≠ d) → ∀ cs, lookupAt w p = some (.dir cs) →
       lookupChild cs "variant" = some (.file d) →
       deserializeW w p (.sEnum vs) = .error (.invalidEnum d)) ∧
    (∀ vs₁ vs₂ n sh, vs = vs₁ ++ (n, sh) :: vs₂ → strBytes n = d →
       (∀ pr ∈ vs₁, strBytes pr.1 ≠ d) → findVariant vs d = some (n, sh)) := by
  refine ⟨?_, ?_, ?_⟩
  · intro hne hl
    rw [deserializeW, hl, deNode, findVariant_none_of_all_ne hne]
  · intro hne cs hl hv
    rw [deserializeW, hl, deNode, hv]
    simp only [fileContentD, Bind.bind, Except.bind]
    split
    · rfl
    all_goals
      rename_i hfv
      rw [findVariant_none_of_all_ne hne] at hfv
      exact Option.noConfusion hfv
  · intro vs₁ vs₂ n sh heq hn hfirst
    rw [heq]
    exact findVariant_first_match vs₁ vs₂ n sh d hn hfirst

/-- C6 witness: the spec's enum-mismatch scenario, decoding the stored
unit variant b against a variant list without b. -/
theorem c6_enum_discriminant_witness :
    deserializeW (.dir [("e", .file (strBytes "b"))]) ["e"]
      (.sEnum [("A", .unitV), ("B", .unitV), ("C", .unitV)]) =
      .error (.invalidEnum (strBytes "b")) ∧
    deserializeW
      (.dir [("e", .dir [("variant", .file (strBytes "b")), ("value", .file [49])])]) ["e"]
      (.sEnum [("A", .newtypeV .sInt)]) = .error (.invalidEnum (strBytes "b")) ∧
    findVariant [("A", .unitV), ("b", .newtypeV .sInt), ("b", .unitV)] (strBytes "b") =
      some ("b", .newtypeV .sInt) := by
  refine ⟨?_, ?_, ?_⟩
  · exact (c6_enum_discriminant _ _ _ _).1 (by decide) (by simp [lookupAt, lookupChild])
  · exact (c6_enum_discriminant _ _ _ _).2.1 (by decide)
      [("variant", .file (strBytes "b")), ("value", .file [49])]
      (by simp [lookupAt, lookupChild]) (by simp [lookupChild])
  · exact (c6_enum_discriminant (.dir []) [] _ _).2.2
      [("A", .unitV)] [("b", .unitV)] "b" (.newtypeV .sInt) rfl rfl (by decide)

theorem natToStr_eq_iff (i j : Nat) : (natToStr i = natToStr j) = (i = j) := by
  apply propext
  constructor
  · exact natToStr_inj
  · rintro rfl; rfl

/-- C4 counterexample: a directory with four contiguous indices
decodes as a 3-tuple successfully (the serde tuple visitor makes
exactly three element requests and never checks for extras), instead
of failing with InvalidLen as the claim states for any count that
differs from N. -/
theorem c4_counterexample :
    deserializeW
      (.dir [("t", .dir [(natToStr 0, .file (intBytes 7)), (natToStr 1, .file (intBytes 7)),
        (natToStr 2, .file (intBytes 7)), (natToStr 3, .file (intBytes 7))])])
      ["t"] (.sTuple [.sInt, .sInt, .sInt]) =
      .ok (.vTuple [.vInt 7, .vInt 7, .vInt 7]) := by
  simp [deserializeW, lookupAt, lookupChild, deNode, deTupleLoop, childOf,
    fileContentD, Bind.bind, Except.bind, natToStr_eq_iff,
    trimBytes_intBytes, parseIntBytes_intBytes]

theorem deTupleLoop_invalidLen (nd? : Option FsNode) (total m : Nat)
    (hmiss : childOf nd? (natToStr m) = none) :
    ∀ (ss : List Shape) (i : Nat), i ≤ m → m < i + ss.length →
    (∀ j, i ≤ j → j < m → ∃ c v, childOf nd? (natToStr j) = some c ∧
        deNode (some c) (ss.getD (j - i) .sUnit) = .ok v) →
    deTupleLoop nd? total ss i = .error (.invalidLen total m) := by
  intro ss
  induction ss with
  | nil =>
    intro i h1 h2 _
    simp at h2
    omega
  | cons s rest ih =>
    intro i h1 h2 hdec
    by_cases him : i = m
    · subst him
      rw [deTupleLoop]
      split
      · rfl
      · rename_i c hc
        rw [hmiss] at hc
        exact Option.noConfusion hc
    · have him' : i < m := by omega
      obtain ⟨c, v, hc, hv⟩ := hdec i le_rfl him'
      have hs : (s :: rest).getD (i - i) .sUnit = s := by simp
      rw [hs] at hv
      rw [deTupleLoop]
      split
      · rename_i hnone
        rw [hc] at hnone
        exact Option.noConfusion hnone
      · rename_i c' hc'
        rw [hc] at hc'
        cases hc'
        rw [hv]
        have hrec : deTupleLoop nd? total rest (i+1) = .error (.invalidLen total m) := by
          apply ih (i+1) (by omega) (by simp at h2 ⊢; omega)
          intro j hj1 hj2
          obtain ⟨c2, v2, hc2, hv2⟩ := hdec j (by omega) hj2
          refine ⟨c2, v2, hc2, ?_⟩
          have : (s :: rest).getD (j - i) .sUnit = rest.getD (j - (i+1)) .sUnit := by
            have hji : j - i = (j - (i+1)) + 1 := by omega
            rw [hji]
            simp
          rw [← this]
          exact hv2
        rw [hrec]
        simp [Bind.bind, Except.bind]

/-- C4 amended: for a fixed-arity tuple or tuple-struct of known
length N, if the number of contiguous integer-named children is
smaller than N, the decode fails with InvalidLen expected N, got the
count of contiguous indices; when more than N contiguous indices
exist, the first N are decoded and the extras are ignored without any
failure (src/de.rs lines 259-275, 197-201). -/
theorem c4_tuple_arity_mismatch (w : FsNode) (p : List String) (nd : FsNode)
    (ss : List Shape) (m : Nat)
    (hl : lookupAt w p = some nd)
    (hmiss : childOf (some nd) (natToStr m) = none)
    (hm : m < ss.length)
    (hdec : ∀ j, j < m → ∃ c v, childOf (some nd) (natToStr j) = some c ∧
        deNode (some c) (ss.getD j .sUnit) = .ok v) :
    deserializeW w p (.sTuple ss) = .error (.invalidLen ss.length m) := by
  rw [deserializeW, hl, deNode]
  have hloop := deTupleLoop_invalidLen (some nd) ss.length m hmiss ss 0
    (by omega) (by omega)
    (by intro j hj1 hj2
        obtain ⟨c, v, hc, hv⟩ := hdec j hj2
        exact ⟨c, v, hc, by simpa using hv⟩)
  rw [hloop]
  simp [Bind.bind, Except.bind]

/-- C4 witness: the spec's arity-mismatch scenario, two stored indices
decoded as a 3-tuple. -/
theorem c4_tuple_arity_mismatch_witness :
    deserializeW
      (.dir [("t", .dir [(natToStr 0, .file (intBytes 100)), (natToStr 1, .file (intBytes 200))])])
      ["t"] (.sTuple [.sInt, .sInt, .sInt]) = .error (.invalidLen 3 2) := by
  have h := c4_tuple_arity_mismatch
    (.dir [("t", .dir [(natToStr 0, .file (intBytes 100)), (natToStr 1, .file (intBytes 200))])])
    ["t"]
    (.dir [(natToStr 0, .file (intBytes 100)), (natToStr 1, .file (intBytes 200))])
    [.sInt, .sInt, .sInt] 2
    (by simp [lookupAt, lookupChild])
    (by simp [childOf, lookupChild, natToStr_eq_iff])
    (by simp)
    (by intro j hj
        interval_cases j
        · exact ⟨.file (intBytes 100), .vInt 100,
            by simp [childOf, lookupChild, natToStr_eq_iff],
            by simp [deNode, fileContentD, Bind.bind, Except.bind,
              trimBytes_intBytes, parseIntBytes_intBytes]⟩
        · exact ⟨.file (intBytes 200), .vInt 200,
            by simp [childOf, lookupChild, natToStr_eq_iff],
            by simp [deNode, fileContentD, Bind.bind, Except.bind,
              trimBytes_intBytes, parseIntBytes_intBytes]⟩)
  simpa using h

theorem newtypeVariantInit_other (cs : Children) (m : String)
    (h1 : m ≠ "variant") (h2 : m ≠ "value") :
    lookupChild (newtypeVariantInit (some (.dir cs))) m = lookupChild cs m := by
  rw [newtypeVariantInit]
  have hinner : ∀ cs1 : Children, lookupChild cs1 m = lookupChild cs m →
      lookupChild (match lookupChild cs1 "value" with
        | some _ => eraseChild cs1 "value"
        | none => cs1) m = lookupChild cs m := by
    intro cs1 hcs1
    split
    · rw [lookupChild_eraseChild_other _ _ _ h2, hcs1]
    · exact hcs1
  apply hinner
  split
  · rw [lookupChild_eraseChild_other _ _ _ h1]
  · rfl

theorem serNode_newtypeVariant_frame {cs : Children} {name : String} {payload : Value}
    {n? : Option FsNode}
    (h : serNode (some (.dir cs)) (.vNewtypeVariant name payload) = .ok n?) :
    ∃ cs₂, n? = some (.dir cs₂) ∧
      lookupChild cs₂ "variant" = some (.file (strBytes name)) ∧
      ∀ m, m ≠ "variant" → m ≠ "value" → lookupChild cs₂ m = lookupChild cs m := by
  rw [serNode] at h
  match hser : serNode
      (lookupChild (setChild (newtypeVariantInit (some (.dir cs))) "variant"
        (.file (strBytes name))) "value") payload with
  | .error e =>
    rw [hser] at h
    simp only [Bind.bind, Except.bind] at h
    exact Except.noConfusion h
  | .ok v? =>
    rw [hser] at h
    simp only [Bind.bind, Except.bind] at h
    match v? with
    | some x =>
      simp only [Except.ok.injEq] at h
      subst h
      refine ⟨_, rfl, ?_, ?_⟩
      · rw [lookupChild_setChild_other _ _ _ _ (by decide),
          lookupChild_setChild_self]
      · intro m hm1 hm2
        rw [lookupChild_setChild_other _ _ _ _ hm2,
          lookupChild_setChild_other _ _ _ _ hm1,
          newtypeVariantInit_other cs m hm1 hm2]
    | none =>
      simp only [Except.ok.injEq] at h
      subst h
      refine ⟨_, rfl, ?_, ?_⟩
      · rw [lookupChild_eraseChild_other _ _ _ (by decide),
          lookupChild_setChild_self]
      · intro m hm1 hm2
        rw [lookupChild_eraseChild_other _ _ _ hm2,
          lookupChild_setChild_other _ _ _ _ hm1,
          newtypeVariantInit_other cs m hm1 hm2]

/-- C10: a newtype-variant encode at a path that is already a
directory removes only the children named variant and value before
writing the new marker and payload; every other child of the directory
is preserved (the directory is not deleted wholesale)
(src/ser.rs lines 483-500). -/
theorem c10_newtype_variant_frame (w w' : FsNode) (p : List String) (cs : Children)
    (name : String) (payload : Value)
    (hp : p ≠ []) (hlook : lookupAt w p = some (.dir cs))
    (hok : serializeW w p (.vNewtypeVariant name payload) = .ok w') :
    ∃ cs₂, lookupAt w' p = some (.dir cs₂) ∧
      lookupChild cs₂ "variant" = some (.file (strBytes name)) ∧
      ∀ m, m ≠ "variant" → m ≠ "value" → lookupChild cs₂ m = lookupChild cs m := by
  obtain ⟨csp, hparent, _⟩ := lookupAt_parent_dir hlook hp
  have hcda : createDirAll w p.dropLast = .ok w := createDirAll_id hparent
  simp only [serializeW] at hok
  rw [hcda] at hok
  simp only [Bind.bind, Except.bind] at hok
  rw [hlook] at hok
  match hser : serNode (some (.dir cs)) (.vNewtypeVariant name payload) with
  | .error e =>
    rw [hser] at hok
    exact Except.noConfusion hok
  | .ok n? =>
    rw [hser] at hok
    simp only [Except.ok.injEq] at hok
    subst hok
    obtain ⟨cs₂, hn, hv, hframe⟩ := serNode_newtypeVariant_frame hser
    subst hn
    exact ⟨cs₂, lookupAt_setAt_self _ ⟨csp, hparent⟩, hv, hframe⟩

/-- C10 witness: a directory holding a foreign file README plus an old
marker and payload; re-encoding the variant preserves README. -/
theorem c10_newtype_variant_frame_witness :
    serializeW (.dir [("var", .dir [("README", .file [72]), ("variant", .file [66]),
        ("value", .file [49])])]) ["var"] (.vNewtypeVariant "C" (.vInt 100)) =
      .ok (.dir [("var", .dir [("README", .file [72]),
        ("variant", .file (strBytes "C")), ("value", .file (intBytes 100))])]) ∧
    lookupChild [("README", FsNode.file [72]), ("variant", FsNode.file (strBytes "C")),
        ("value", FsNode.file (intBytes 100))] "README" =
      lookupChild [("README", FsNode.file [72]), ("variant", FsNode.file [66]),
        ("value", FsNode.file [49])] "README" := by
  obtain ⟨cs₂, h1, h2, h3⟩ := c10_newtype_variant_frame
    (.dir [("var", .dir [("README", .file [72]), ("variant", .file [66]),
      ("value", .file [49])])])
    (.dir [("var", .dir [("README", .file [72]),
      ("variant", .file (strBytes "C")), ("value", .file (intBytes 100))])])
    ["var"]
    [("README", .file [72]), ("variant", .file [66]), ("value", .file [49])]
    "C" (.vInt 100) (by simp) (by simp [lookupAt, lookupChild]) rfl
  have hcs : [("README", FsNode.file [72]), ("variant", FsNode.file (strBytes "C")),
      ("value", FsNode.file (intBytes 100))] = cs₂ := by
    simpa [lookupAt, lookupChild] using h1
  refine ⟨rfl, ?_⟩
  rw [hcs]
  exact h3 "README" (by decide) (by decide)

/-- C3: the claim that every side effect stays at or beneath the root
path fails on `serialize_key`: its `fs::File::create(&key)` creates an
empty file named after the key relative to the process working
directory, outside the subtree rooted at the map's path (src/ser.rs
line 291; compare `serialize_value` and `serialize_entry`, which join
the key onto `self.path`).  Here the map lives at root/map, the
working directory is tmp, and serializing the key test creates the
file tmp/test. -/
theorem c3_serialize_key_stray_file :
    serializeKeyOp (.dir [("tmp", .dir []), ("root", .dir [("map", .dir [])])])
      ["tmp"] { path := ["root", "map"], key := none } (.kStr "test") =
      .ok (.dir [("tmp", .dir [("test", .file [])]), ("root", .dir [("map", .dir [])])],
        { path := ["root", "map"], key := some "test" }) ∧
    lookupAt (.dir [("tmp", .dir []), ("root", .dir [("map", .dir [])])])
      ["tmp", "test"] = none ∧
    lookupAt (.dir [("tmp", .dir [("test", .file [])]), ("root", .dir [("map", .dir [])])])
      ["tmp", "test"] = some (.file []) ∧
    isUnder ["tmp", "test"] ["root", "map"] = false := by
  refine ⟨?_, ?_, ?_, ?_⟩
  · rfl
  · simp [lookupAt, lookupChild]
  · simp [lookupAt, lookupChild]
  · decide

theorem lookupChild_append (cs cs' : Children) (name : String) :
    lookupChild (cs ++ cs') name =
      match lookupChild cs name with
      | some x => some x
      | none => lookupChild cs' name := by
  induction cs with
  | nil => simp [lookupChild]
  | cons hd rest ih =>
    obtain ⟨k, y⟩ := hd
    by_cases he : k = name
    · simp [lookupChild, he]
    · simp only [List.cons_append, lookupChild, if_neg he]
      exact ih

theorem lookupChild_filter_nonnum {cs : Children} {name : String}
    (h : parseUsize name = none) :
    lookupChild (cs.filter (fun pr => (parseUsize pr.1).isNone)) name = lookupChild cs name := by
  induction cs with
  | nil => simp
  | cons hd rest ih =>
    obtain ⟨k, y⟩ := hd
    by_cases he : k = name
    · subst he
      rw [List.filter_cons, if_pos (by simp [h])]
      rw [lookupChild, if_pos rfl, lookupChild, if_pos rfl]
    · rw [List.filter_cons]
      by_cases hk : (parseUsize k).isNone
      · rw [if_pos (by simpa using hk), lookupChild, if_neg he, lookupChild, if_neg he]
        exact ih
      · rw [if_neg (by simpa using hk), lookupChild, if_neg he]
        exact ih

theorem lookupChild_idxPairs_nonnum {name : String} (h : parseUsize name = none) :
    ∀ (nds : List FsNode) (i : Nat), lookupChild (idxPairs i nds) name = none := by
  intro nds
  induction nds with
  | nil => intro i; rfl
  | cons nd rest ih =>
    intro i
    rw [idxPairs, lookupChild, if_neg ?_]
    · exact ih (i+1)
    · exact fun hcontra => ne_natToStr_of_parseUsize_none h i hcontra.symm

theorem lookupChild_idxPairs_ge (nds : List FsNode) :
    ∀ (i j : Nat), i + nds.length ≤ j → lookupChild (idxPairs i nds) (natToStr j) = none := by
  induction nds with
  | nil => intro i j _; rfl
  | cons nd rest ih =>
    intro i j h
    simp only [List.length_cons] at h
    rw [idxPairs, lookupChild, if_neg (by simp only [natToStr_eq_iff]; omega)]
    exact ih (i+1) j (by omega)

theorem lookupChild_idxPairs_lt (nds : List FsNode) :
    ∀ (i j : Nat), i ≤ j → j < i + nds.length →
      lookupChild (idxPairs i nds) (natToStr j) = some (nds.getD (j - i) (.file [])) := by
  induction nds with
  | nil =>
    intro i j h1 h2
    simp at h2
    omega
  | cons nd rest ih =>
    intro i j h1 h2
    by_cases he : i = j
    · subst he
      rw [idxPairs, lookupChild, if_pos rfl]
      simp
    · rw [idxPairs, lookupChild, if_neg (by simp only [natToStr_eq_iff]; omega)]
      rw [ih (i+1) j (by omega) (by simp at h2 ⊢; omega)]
      congr 1
      have : j - i = (j - (i+1)) + 1 := by omega
      rw [this]
      simp

theorem lookupChild_filter_natToStr (cs : Children) (j : Nat) :
    lookupChild (cs.filter (fun pr => (parseUsize pr.1).isNone)) (natToStr j) = none := by
  induction cs with
  | nil => simp [lookupChild]
  | cons hd rest ih =>
    obtain ⟨k, y⟩ := hd
    rw [List.filter_cons]
    by_cases hk : (parseUsize k).isNone
    · rw [if_pos (by simpa using hk)]
      rw [lookupChild, if_neg ?_]
      · exact ih
      · have hknone : parseUsize k = none := Option.isNone_iff_eq_none.mp hk
        exact ne_natToStr_of_parseUsize_none hknone j
    · rw [if_neg (by simpa using hk)]
      exact ih

theorem reconcileSeq_files {cs : Children}
    (h : ∀ pr ∈ cs, (parseUsize pr.1).isSome = true → ∃ b, pr.2 = .file b) :
    reconcileSeq cs = .ok (cs.filter (fun pr => (parseUsize pr.1).isNone)) := by
  induction cs with
  | nil => rfl
  | cons hd rest ih =>
    obtain ⟨k, y⟩ := hd
    have ihrest := ih (fun pr hpr hnum => h pr (List.mem_cons_of_mem _ hpr) hnum)
    match hk : parseUsize k with
    | some j =>
      obtain ⟨b, hb⟩ := h (k, y) (List.mem_cons_self _ _) (by simp [hk])
      simp only at hb
      subst hb
      rw [List.filter_cons, if_neg (by simp [hk])]
      simp only [reconcileSeq, hk]
      exact ihrest
    | none =>
      rw [List.filter_cons, if_pos (by simp [hk])]
      simp only [reconcileSeq, hk]
      rw [ihrest]
      simp [Bind.bind, Except.bind]

theorem setChild_append {cs : Children} {n : String} {x : FsNode}
    (h : lookupChild cs n = none) : setChild cs n x = cs ++ [(n, x)] := by
  induction cs with
  | nil => rfl
  | cons hd rest ih =>
    obtain ⟨k, y⟩ := hd
    rw [lookupChild] at h
    by_cases he : k = n
    · rw [if_pos he] at h
      exact Option.noConfusion h
    · rw [if_neg he] at h
      rw [setChild, if_neg he, List.cons_append, ih h]

theorem canonNode_eq {x : Value} {nd : FsNode} (h : serNode none x = .ok (some nd)) :
    canonNode x = nd := by
  rw [canonNode, h]

theorem serElems_append : ∀ (xs : List Value) (cs : Children) (i : Nat),
    (∀ j, i ≤ j → lookupChild cs (natToStr j) = none) →
    (∀ x ∈ xs, ∃ nd, serNode none x = .ok (some nd)) →
    serElems cs i xs = .ok (cs ++ idxPairs i (xs.map canonNode)) := by
  intro xs
  induction xs with
  | nil => intro cs i _ _; simp [serElems, idxPairs]
  | cons x rest ih =>
    intro cs i hfresh hok
    obtain ⟨nd, hnd⟩ := hok x (List.mem_cons_self _ _)
    rw [serElems, hfresh i le_rfl, hnd]
    simp only [Bind.bind, Except.bind]
    rw [setChild_append (hfresh i le_rfl)]
    rw [ih (cs ++ [(natToStr i, nd)]) (i+1) ?_ (fun z hz => hok z (List.mem_cons_of_mem _ hz))]
    · rw [List.map_cons, idxPairs, canonNode_eq hnd, List.append_assoc]
      rfl
    · intro j hj
      rw [lookupChild_append, hfresh j (by omega)]
      rw [lookupChild, if_neg (by simp only [natToStr_eq_iff]; omega)]
      rfl

/-- The directory children a sequence encode leaves behind when every
integer-named entry it reconciles is a regular file: the non-numeric
entries in their original order, followed by one child per element.
This is the proved outcome of the reconciliation plus the element
loop, used to state the reconciliation theorem. -/
def seqResultChildren (cs : Children) (xs : List Value) : Children :=
  cs.filter (fun pr => (parseUsize pr.1).isNone) ++ idxPairs 0 (xs.map canonNode)

/-- C2 counterexample: when an integer-named child of the directory is
itself a directory (a stale element of a previous sequence of
composites), the reconciliation's `fs::remove_file` fails, so the
encoder errors instead of deleting the entry and writing the new
elements. -/
theorem c2_counterexample :
    serializeW (.dir [("s", .dir [(natToStr 0, .dir [])])]) ["s"] (.vSeq [.vInt 100]) =
      .error (.ioError .isADirectory) := by
  rfl

/-- C2 amended: a sequence/tuple/tuple-struct encode at a directory
deletes every entry whose name parses as a non-negative integer
provided those entries are regular files (on an integer-named
directory entry the `remove_file` of the reconciliation fails with an
I/O error instead, see the counterexample), leaves every non-numeric
entry unchanged, and then writes element i at path/i for
i = 0 .. len-1 (src/ser.rs lines 44-59, 81-86). -/
theorem c2_seq_reconciliation (w : FsNode) (p : List String) (cs : Children)
    (xs : List Value)
    (hp : p ≠ []) (hlook : lookupAt w p = some (.dir cs))
    (hnum : ∀ pr ∈ cs, (parseUsize pr.1).isSome = true → ∃ b, pr.2 = .file b)
    (helems : ∀ x ∈ xs, ∃ nd, serNode none x = .ok (some nd)) :
    serializeW w p (.vSeq xs) = .ok (setAt w p (some (.dir (seqResultChildren cs xs)))) ∧
    lookupAt (setAt w p (some (.dir (seqResultChildren cs xs)))) p =
      some (.dir (seqResultChildren cs xs)) ∧
    (∀ name, parseUsize name = none →
      lookupChild (seqResultChildren cs xs) name = lookupChild cs name) ∧
    (∀ j, xs.length ≤ j → lookupChild (seqResultChildren cs xs) (natToStr j) = none) ∧
    (∀ j, j < xs.length → lookupChild (seqResultChildren cs xs) (natToStr j) =
      some ((xs.map canonNode).getD j (.file []))) := by
  obtain ⟨csp, hparent, _⟩ := lookupAt_parent_dir hlook hp
  have hcda : createDirAll w p.dropLast = .ok w := createDirAll_id hparent
  have hser : serNode (some (.dir cs)) (.vSeq xs) = .ok (some (.dir (seqResultChildren cs xs))) := by
    simp only [serNode, seqSerInit, reconcileSeq_files hnum, Bind.bind, Except.bind]
    rw [serElems_append xs _ 0 (fun j _ => lookupChild_filter_natToStr cs j) helems]
    rfl
  refine ⟨?_, ?_, ?_, ?_, ?_⟩
  · simp only [serializeW]
    rw [hcda]
    simp only [Bind.bind, Except.bind]
    rw [hlook, hser]
  · exact lookupAt_setAt_self _ ⟨csp, hparent⟩
  · intro name hname
    rw [seqResultChildren, lookupChild_append, lookupChild_filter_nonnum hname,
      lookupChild_idxPairs_nonnum hname]
    match lookupChild cs name with
    | some x => rfl
    | none => rfl
  · intro j hj
    rw [seqResultChildren, lookupChild_append, lookupChild_filter_natToStr,
      lookupChild_idxPairs_ge _ 0 j (by simpa using hj)]
  · intro j hj
    rw [seqResultChildren, lookupChild_append, lookupChild_filter_natToStr,
      lookupChild_idxPairs_lt _ 0 j (by omega) (by simpa using hj)]
    simp

/-- C2 witness: the spec's shrinkage scenario; encode 100,200,300 at a
fresh path, re-encode 100,200 at the same path: index 2 is gone and
indices 0 and 1 hold the texts 100 and 200. -/
theorem c2_seq_reconciliation_witness :
    serializeW (.dir []) ["s"] (.vSeq [.vInt 100, .vInt 200, .vInt 300]) =
      .ok (.dir [("s", .dir [(natToStr 0, .file (intBytes 100)),
        (natToStr 1, .file (intBytes 200)), (natToStr 2, .file (intBytes 300))])]) ∧
    serializeW (.dir [("s", .dir [(natToStr 0, .file (intBytes 100)),
        (natToStr 1, .file (intBytes 200)), (natToStr 2, .file (intBytes 300))])])
      ["s"] (.vSeq [.vInt 100, .vInt 200]) =
      .ok (.dir [("s", .dir [(natToStr 0, .file (intBytes 100)),
        (natToStr 1, .file (intBytes 200))])]) ∧
    lookupAt (.dir [("s", .dir [(natToStr 0, .file (intBytes 100)),
        (natToStr 1, .file (intBytes 200))])]) ["s", natToStr 2] = none ∧
    lookupAt (.dir [("s", .dir [(natToStr 0, .file (intBytes 100)),
        (natToStr 1, .file (intBytes 200))])]) ["s", natToStr 0] =
      some (.file (intBytes 100)) ∧
    lookupAt (.dir [("s", .dir [(natToStr 0, .file (intBytes 100)),
        (natToStr 1, .file (intBytes 200))])]) ["s", natToStr 1] =
      some (.file (intBytes 200)) := by
  have h := c2_seq_reconciliation
    (.dir [("s", .dir [(natToStr 0, .file (intBytes 100)),
      (natToStr 1, .file (intBytes 200)), (natToStr 2, .file (intBytes 300))])])
    ["s"]
    [(natToStr 0, .file (intBytes 100)), (natToStr 1, .file (intBytes 200)),
      (natToStr 2, .file (intBytes 300))]
    [.vInt 100, .vInt 200]
    (by simp) (by simp [lookupAt, lookupChild])
    (by intro pr hpr _
        simp only [List.mem_cons, List.not_mem_nil, or_false] at hpr
        rcases hpr with rfl | rfl | rfl <;> exact ⟨_, rfl⟩)
    (by intro x hx
        simp only [List.mem_cons, List.not_mem_nil, or_false] at hx
        rcases hx with rfl | rfl <;> exact ⟨_, rfl⟩)
  refine ⟨rfl, ?_, rfl, rfl, rfl⟩
  have h1 := h.1
  have hres : seqResultChildren
      [(natToStr 0, .file (intBytes 100)), (natToStr 1, .file (intBytes 200)),
        (natToStr 2, .file (intBytes 300))] [.vInt 100, .vInt 200] =
      [(natToStr 0, .file (intBytes 100)), (natToStr 1, .file (intBytes 200))] := by
    rfl
  rw [hres] at h1
  exact h1

/-- True for the values whose serialization is a deletion: none, and
some-wrappers around such values (serialize_some is transparent). -/
def isNoneLike : Value → Bool
  | .vNone => true
  | .vSome v => isNoneLike v
  | _ => false

mutual
/-- Sufficient conditions on a value for the byte-exact round trip
proved in the round-trip theorem: every char is a single UTF-8 byte
(deserialize_char reads one byte); no some-wrapped none (its encoding
deletes, decoding gives a bare none); no none as a sequence/tuple
element or map entry value (the missing index or entry changes the
decoded shape); duplicate-free map keys and struct field names; and no
struct-variant field named variant (it would overwrite the marker). -/
def rtOk : Value → Bool
  | .vBool _ => true
  | .vInt _ => true
  | .vChar c => decide (c.toNat < 128)
  | .vStr _ => true
  | .vBytes _ => true
  | .vUnit => true
  | .vNone => true
  | .vSome v => !isNoneLike v && rtOk v
  | .vSeq xs => rtElems xs
  | .vTuple xs => rtElems xs
  | .vMap es => decide ((es.map Prod.fst).Nodup) && rtVals es
  | .vStruct fs => decide ((fs.map Prod.fst).Nodup) && rtFields fs
  | .vUnitVariant _ => true
  | .vNewtypeVariant _ p => rtOk p
  | .vTupleVariant _ xs => rtElems xs
  | .vStructVariant _ fs =>
    decide ((fs.map Prod.fst).Nodup) && decide ("variant" ∉ fs.map Prod.fst) && rtFields fs
termination_by structural v => v

def rtElems : List Value → Bool
  | [] => true
  | x :: xs => !isNoneLike x && rtOk x && rtElems xs
termination_by structural xs => xs

def rtVals : List (String × Value) → Bool
  | [] => true
  | (_, v) :: rest => !isNoneLike v && rtOk v && rtVals rest
termination_by structural l => l

def rtFields : List (String × Value) → Bool
  | [] => true
  | (_, v) :: rest => rtOk v && rtFields rest
termination_by structural l => l
end

mutual
/-- The value inhabits the requested shape: what it means for the
caller's type (the shape) to describe the serialized value, including
that the decoder's first byte-equal variant match is the value's own
variant with the matching payload shape. -/
def hasShape : Value → Shape → Bool
  | .vBool _, .sBool => true
  | .vInt _, .sInt => true
  | .vChar _, .sChar => true
  | .vStr _, .sStr => true
  | .vBytes _, .sBytes => true
  | .vUnit, .sUnit => true
  | .vNone, .sOption _ => true
  | .vSome v, .sOption s => hasShape v s
  | .vSeq xs, .sSeq s => hasShapeAll xs s
  | .vTuple xs, .sTuple ss => hasShapeZip xs ss
  | .vMap es, .sMap s => hasShapeVals es s
  | .vStruct fs, .sStruct fss => hasShapeFields fs fss
  | .vUnitVariant n, .sEnum vs =>
    match findVariant vs (strBytes n) with
    | some (m, .unitV) => m == n
    | _ => false
  | .vNewtypeVariant n p, .sEnum vs =>
    match findVariant vs (strBytes n) with
    | some (m, .newtypeV s) => m == n && hasShape p s
    | _ => false
  | .vTupleVariant n xs, .sEnum vs =>
    match findVariant vs (strBytes n) with
    | some (m, .tupleV ss) => m == n && hasShapeZip xs ss
    | _ => false
  | .vStructVariant n fs, .sEnum vs =>
    match findVariant vs (strBytes n) with
    | some (m, .structV fss) => m == n && hasShapeFields fs fss
    | _ => false
  | _, _ => false
termination_by structural v s => v

def hasShapeAll : List Value → Shape → Bool
  | [], _ => true
  | x :: xs, s => hasShape x s && hasShapeAll xs s
termination_by structural xs s => xs

def hasShapeZip : List Value → List Shape → Bool
  | [], [] => true
  | x :: xs, s :: ss => hasShape x s && hasShapeZip xs ss
  | _, _ => false
termination_by structural xs ss => xs

def hasShapeVals : List (String × Value) → Shape → Bool
  | [], _ => true
  | (_, v) :: rest, s => hasShape v s && hasShapeVals rest s
termination_by structural l s => l

def hasShapeFields : List (String × Value) → List (String × Shape) → Bool
  | [], [] => true
  | (k, v) :: rest, (k', s) :: rest' => k == k' && hasShape v s && hasShapeFields rest rest'
  | _, _ => false
termination_by structural l l2 => l
end

theorem eraseChild_id {cs : Children} {n : String} (h : lookupChild cs n = none) :
    eraseChild cs n = cs := by
  induction cs with
  | nil => rfl
  | cons hd rest ih =>
    obtain ⟨k, y⟩ := hd
    rw [lookupChild] at h
    by_cases he : k = n
    · rw [if_pos he] at h
      exact Option.noConfusion h
    · rw [if_neg he] at h
      rw [eraseChild, if_neg he, ih h]

theorem lookupChild_none_keys {cs : Children} {name : String}
    (h : ∀ pr ∈ cs, pr.1 ≠ name) : lookupChild cs name = none := by
  induction cs with
  | nil => rfl
  | cons hd rest ih =>
    obtain ⟨k, y⟩ := hd
    rw [lookupChild, if_neg (h (k, y) (List.mem_cons_self _ _))]
    exact ih (fun pr hpr => h pr (List.mem_cons_of_mem _ hpr))

theorem rtElems_mem {xs : List Value} (h : rtElems xs = true) :
    ∀ x ∈ xs, isNoneLike x = false ∧ rtOk x = true := by
  induction xs with
  | nil => simp
  | cons y rest ih =>
    rw [rtElems] at h
    simp only [Bool.and_eq_true, Bool.not_eq_true'] at h
    intro x hx
    rcases List.mem_cons.mp hx with rfl | hx'
    · exact ⟨h.1.1, h.1.2⟩
    · exact ih h.2 x hx'

theorem rtVals_mem {es : List (String × Value)} (h : rtVals es = true) :
    ∀ pr ∈ es, isNoneLike pr.2 = false ∧ rtOk pr.2 = true := by
  induction es with
  | nil => simp
  | cons hd rest ih =>
    obtain ⟨k, v⟩ := hd
    rw [rtVals] at h
    simp only [Bool.and_eq_true, Bool.not_eq_true'] at h
    intro pr hpr
    rcases List.mem_cons.mp hpr with rfl | hpr'
    · exact ⟨h.1.1, h.1.2⟩
    · exact ih h.2 pr hpr'

theorem rtFields_mem {fs : List (String × Value)} (h : rtFields fs = true) :
    ∀ pr ∈ fs, rtOk pr.2 = true := by
  induction fs with
  | nil => simp
  | cons hd rest ih =>
    obtain ⟨k, v⟩ := hd
    rw [rtFields] at h
    simp only [Bool.and_eq_true] at h
    intro pr hpr
    rcases List.mem_cons.mp hpr with rfl | hpr'
    · exact h.1
    · exact ih h.2 pr hpr'

theorem hasShapeAll_mem {xs : List Value} {s : Shape} (h : hasShapeAll xs s = true) :
    ∀ x ∈ xs, hasShape x s = true := by
  induction xs with
  | nil => simp
  | cons y rest ih =>
    rw [hasShapeAll] at h
    simp only [Bool.and_eq_true] at h
    intro x hx
    rcases List.mem_cons.mp hx with rfl | hx'
    · exact h.1
    · exact ih h.2 x hx'

theorem hasShapeVals_mem {es : List (String × Value)} {s : Shape}
    (h : hasShapeVals es s = true) : ∀ pr ∈ es, hasShape pr.2 s = true := by
  induction es with
  | nil => simp
  | cons hd rest ih =>
    obtain ⟨k, v⟩ := hd
    rw [hasShapeVals] at h
    simp only [Bool.and_eq_true] at h
    intro pr hpr
    rcases List.mem_cons.mp hpr with rfl | hpr'
    · exact h.1
    · exact ih h.2 pr hpr'

theorem hasShapeZip_length {xs : List Value} {ss : List Shape}
    (h : hasShapeZip xs ss = true) : xs.length = ss.length := by
  induction xs generalizing ss with
  | nil =>
    cases ss with
    | nil => rfl
    | cons s rest => exact absurd h (by simp [hasShapeZip])
  | cons x rest ih =>
    cases ss with
    | nil => exact absurd h (by simp [hasShapeZip])
    | cons s ss' =>
      rw [hasShapeZip] at h
      simp only [Bool.and_eq_true] at h
      simp [ih h.2]

theorem hasShapeFields_forall {fs : List (String × Value)} {fss : List (String × Shape)}
    (h : hasShapeFields fs fss = true) :
    List.Forall₂ (fun (fv : String × Value) (fsh : String × Shape) =>
      fv.1 = fsh.1 ∧ hasShape fv.2 fsh.2 = true) fs fss := by
  induction fs generalizing fss with
  | nil =>
    cases fss with
    | nil => exact List.Forall₂.nil
    | cons s rest => exact absurd h (by simp [hasShapeFields])
  | cons hd rest ih =>
    obtain ⟨k, v⟩ := hd
    cases fss with
    | nil => exact absurd h (by simp [hasShapeFields])
    | cons hd' rest' =>
      obtain ⟨k', s⟩ := hd'
      rw [hasShapeFields] at h
      simp only [Bool.and_eq_true, beq_iff_eq] at h
      exact List.Forall₂.cons ⟨h.1.1, h.1.2⟩ (ih h.2)

theorem isNoneLike_eq_vNone {v : Value} (hr : rtOk v = true) (hn : isNoneLike v = true) :
    v = .vNone := by
  match v with
  | .vNone => rfl
  | .vSome x =>
    rw [rtOk] at hr
    rw [isNoneLike] at hn
    simp only [Bool.and_eq_true, Bool.not_eq_true'] at hr
    rw [hr.1] at hn
    exact Bool.noConfusion hn
  | .vBool _ | .vInt _ | .vChar _ | .vStr _ | .vBytes _ | .vUnit | .vSeq _ | .vTuple _
  | .vMap _ | .vStruct _ | .vUnitVariant _ | .vNewtypeVariant _ _ | .vTupleVariant _ _
  | .vStructVariant _ _ => exact absurd hn (by simp [isNoneLike])

theorem hasShape_vNone {s : Shape} (h : hasShape .vNone s = true) :
    ∃ s', s = .sOption s' := by
  match s with
  | .sOption s' => exact ⟨s', rfl⟩
  | .sBool | .sInt | .sChar | .sStr | .sBytes | .sUnit | .sSeq _ | .sTuple _ | .sMap _
  | .sStruct _ | .sEnum _ => exact absurd h (by simp [hasShape])

theorem getD_mem_of_lt {α : Type} {l : List α} {n : Nat} {d : α} (h : n < l.length) :
    l.getD n d ∈ l := by
  rw [List.getD_eq_getElem l d h]
  exact List.getElem_mem h

theorem getD_map_canon (xs : List Value) :
    ∀ k : Nat, (xs.map canonNode).getD k (.file []) = canonNode (xs.getD k .vUnit) := by
  induction xs with
  | nil => intro k; cases k <;> rfl
  | cons x rest ih =>
    intro k
    cases k with
    | zero => rfl
    | succ k' => simpa using ih k'

theorem idxPairs_length (nds : List FsNode) : ∀ i, (idxPairs i nds).length = nds.length := by
  induction nds with
  | nil => intro i; rfl
  | cons nd rest ih => intro i; simp [idxPairs, ih]

theorem deSeqLoop_ok (nd? : Option FsNode) (s : Shape) :
    ∀ (xs : List Value) (i fuel : Nat),
    (∀ k, k < xs.length → childOf nd? (natToStr (i + k)) =
      some (canonNode (xs.getD k .vUnit))) →
    childOf nd? (natToStr (i + xs.length)) = none →
    (∀ k, k < xs.length → deNode (some (canonNode (xs.getD k .vUnit))) s =
      .ok (xs.getD k .vUnit)) →
    xs.length < fuel →
    deSeqLoop nd? s i fuel = .ok xs := by
  intro xs
  induction xs with
  | nil =>
    intro i fuel _ hmiss _ hfuel
    match fuel with
    | 0 => omega
    | f+1 =>
      rw [deSeqLoop]
      split
      · rfl
      · rename_i c hc
        rw [show i + [].length = i from by simp] at hmiss
        rw [hmiss] at hc
        exact Option.noConfusion hc
  | cons x rest ih =>
    intro i fuel hchild hmiss hdec hfuel
    match fuel with
    | 0 => simp at hfuel
    | f+1 =>
      have h0 := hchild 0 (by simp)
      rw [show i + 0 = i from rfl] at h0
      rw [deSeqLoop]
      split
      · rename_i hc
        rw [h0] at hc
        exact Option.noConfusion hc
      · rename_i c hc
        rw [h0] at hc
        cases hc
        have hd0 := hdec 0 (by simp)
        simp only [List.getD_cons_zero] at hd0 h0 ⊢
        rw [hd0]
        have hrec : deSeqLoop nd? s (i+1) f = .ok rest := by
          apply ih (i+1) f
          · intro k hk
            have := hchild (k+1) (by simpa using Nat.succ_lt_succ hk)
            rw [show i + (k+1) = i + 1 + k from by omega] at this
            simpa using this
          · rw [show i + 1 + rest.length = i + (x :: rest).length from by simp; omega]
            exact hmiss
          · intro k hk
            have := hdec (k+1) (by simpa using Nat.succ_lt_succ hk)
            simpa using this
          · simp at hfuel
            omega
        rw [hrec]
        simp [Bind.bind, Except.bind]

theorem deTupleLoop_ok (nd? : Option FsNode) (total : Nat) :
    ∀ (ss : List Shape) (xs : List Value) (i : Nat),
    xs.length = ss.length →
    (∀ k, k < xs.length → childOf nd? (natToStr (i + k)) =
      some (canonNode (xs.getD k .vUnit))) →
    (∀ k, k < xs.length → deNode (some (canonNode (xs.getD k .vUnit)))
      (ss.getD k .sUnit) = .ok (xs.getD k .vUnit)) →
    deTupleLoop nd? total ss i = .ok xs := by
  intro ss
  induction ss with
  | nil =>
    intro xs i hlen _ _
    match xs, hlen with
    | [], _ => rw [deTupleLoop]
  | cons s rest ih =>
    intro xs i hlen hchild hdec
    match xs, hlen with
    | x :: xs', hlen =>
      have h0 := hchild 0 (by simp)
      rw [show i + 0 = i from rfl] at h0
      rw [deTupleLoop]
      split
      · rename_i hc
        rw [h0] at hc
        exact Option.noConfusion hc
      · rename_i c hc
        rw [h0] at hc
        cases hc
        have hd0 := hdec 0 (by simp)
        simp only [List.getD_cons_zero] at hd0 h0 ⊢
        rw [hd0]
        have hrec : deTupleLoop nd? total rest (i+1) = .ok xs' := by
          apply ih xs' (i+1) (by simpa using hlen)
          · intro k hk
            have := hchild (k+1) (by simpa using Nat.succ_lt_succ hk)
            rw [show i + (k+1) = i + 1 + k from by omega] at this
            simpa using this
          · intro k hk
            have := hdec (k+1) (by simpa using Nat.succ_lt_succ hk)
            simpa using this
        rw [hrec]
        simp [Bind.bind, Except.bind]

theorem deMapLoop_ok (cs : Children) (s : Shape) :
    ∀ (es : List (String × Value)),
    (∀ pr ∈ es, deNode (lookupChild cs pr.1) s = .ok pr.2) →
    deMapLoop cs s (es.map Prod.fst) = .ok es := by
  intro es
  induction es with
  | nil => intro _; rw [List.map_nil, deMapLoop]
  | cons hd rest ih =>
    obtain ⟨k, v⟩ := hd
    intro hdec
    rw [List.map_cons, deMapLoop, hdec (k, v) (List.mem_cons_self _ _)]
    rw [ih (fun pr hpr => hdec pr (List.mem_cons_of_mem _ hpr))]
    simp [Bind.bind, Except.bind]

theorem deFieldsLoop_ok (nd? : Option FsNode) :
    ∀ {fss : List (String × Shape)} {fs : List (String × Value)},
    List.Forall₂ (fun (fv : String × Value) (fsh : String × Shape) =>
      fv.1 = fsh.1 ∧ deNode (childOf nd? fv.1) fsh.2 = .ok fv.2) fs fss →
    deFieldsLoop nd? fss = .ok fs := by
  intro fss fs h
  induction h with
  | nil => rw [deFieldsLoop]
  | cons hd tl ih =>
    rename_i fv fsh fs' fss'
    obtain ⟨f, v⟩ := fv
    obtain ⟨f', sh⟩ := fsh
    simp only at hd
    obtain ⟨hf, hdec⟩ := hd
    subst hf
    rw [deFieldsLoop, hdec, ih]
    simp [Bind.bind, Except.bind]

/-- The children a map/struct entry loop writes on a fresh set of keys:
one child per entry whose value is not a deletion, named by the key,
holding the value's canonical node. -/
def entriesChildren (es : List (String × Value)) : Children :=
  (es.filter (fun pr => !isNoneLike pr.2)).map (fun pr => (pr.1, canonNode pr.2))

theorem entriesChildren_cons (k : String) (v : Value) (rest : List (String × Value)) :
    entriesChildren ((k, v) :: rest) =
      if isNoneLike v then entriesChildren rest
      else (k, canonNode v) :: entriesChildren rest := by
  rw [entriesChildren, List.filter_cons]
  by_cases hn : isNoneLike v
  · rw [if_pos hn, if_neg (by simpa using hn)]
    rfl
  · rw [if_neg hn, if_pos (by simp [hn])]
    rfl

theorem lookupChild_entriesChildren_notmem {es : List (String × Value)} {name : String}
    (h : name ∉ es.map Prod.fst) :
    lookupChild (entriesChildren es) name = none := by
  apply lookupChild_none_keys
  intro pr' hpr'
  rw [entriesChildren] at hpr'
  obtain ⟨q, hq, rfl⟩ := List.mem_map.mp hpr'
  intro hcontra
  exact h (List.mem_map.mpr ⟨q, List.mem_of_mem_filter hq, hcontra⟩)

theorem lookupChild_entriesChildren {es : List (String × Value)}
    (hnodup : (es.map Prod.fst).Nodup) :
    ∀ pr ∈ es, lookupChild (entriesChildren es) pr.1 =
      if isNoneLike pr.2 then none else some (canonNode pr.2) := by
  induction es with
  | nil => simp
  | cons hd rest ih =>
    obtain ⟨k, v⟩ := hd
    rw [List.map_cons, List.nodup_cons] at hnodup
    intro pr hpr
    rcases List.mem_cons.mp hpr with rfl | hpr'
    · show lookupChild (entriesChildren ((k, v) :: rest)) k =
        if isNoneLike v then none else some (canonNode v)
      by_cases hn : isNoneLike v
      · rw [if_pos hn]
        rw [entriesChildren, List.filter_cons, if_neg (by simpa using hn)]
        exact lookupChild_entriesChildren_notmem hnodup.1
      · rw [if_neg hn]
        rw [entriesChildren, List.filter_cons,
          if_pos (by simp only [Bool.not_eq_true'] at hn ⊢; simp [hn])]
        rw [List.map_cons, lookupChild, if_pos rfl]
    · have hk : k ≠ pr.1 := by
        intro hcontra
        exact hnodup.1 (hcontra ▸ List.mem_map.mpr ⟨pr, hpr', rfl⟩)
      have hrest := ih hnodup.2 pr hpr'
      rw [entriesChildren, List.filter_cons]
      by_cases hn : isNoneLike v
      · rw [if_neg (by simpa using hn)]
        exact hrest
      · rw [if_pos (by simp only [Bool.not_eq_true'] at hn ⊢; simp [hn])]
        rw [List.map_cons, lookupChild, if_neg hk]
        exact hrest

theorem serEntries_general : ∀ (es : List (String × Value)) (cs₀ : Children),
    (∀ pr ∈ es, lookupChild cs₀ pr.1 = none) →
    (es.map Prod.fst).Nodup →
    (∀ pr ∈ es, ∃ n?, serNode none pr.2 = .ok n? ∧ (n? = none ↔ isNoneLike pr.2 = true)) →
    serEntries cs₀ es = .ok (cs₀ ++ entriesChildren es) := by
  intro es
  induction es with
  | nil => intro cs₀ _ _ _; simp [serEntries, entriesChildren]
  | cons hd rest ih =>
    obtain ⟨k, v⟩ := hd
    intro cs₀ hfresh hnodup hok
    rw [List.map_cons, List.nodup_cons] at hnodup
    obtain ⟨n?, hser, hiff⟩ := hok (k, v) (List.mem_cons_self _ _)
    have hfk : lookupChild cs₀ k = none := hfresh (k, v) (List.mem_cons_self _ _)
    rw [serEntries, hfk, hser]
    simp only [Bind.bind, Except.bind]
    match n?, hiff with
    | none, hiff =>
      have hn : isNoneLike v = true := by simpa using hiff.mp rfl
      show serEntries (eraseChild cs₀ k) rest = _
      rw [eraseChild_id hfk]
      rw [ih cs₀ (fun pr hpr => hfresh pr (List.mem_cons_of_mem _ hpr)) hnodup.2
        (fun pr hpr => hok pr (List.mem_cons_of_mem _ hpr))]
      rw [entriesChildren_cons, if_pos hn]
    | some nd, hiff =>
      have hn : isNoneLike v = false := by
        rcases hv : isNoneLike v with _ | _
        · rfl
        · exact Option.noConfusion (hiff.mpr hv)
      show serEntries (setChild cs₀ k nd) rest = _
      rw [setChild_append hfk]
      rw [ih (cs₀ ++ [(k, nd)]) ?_ hnodup.2
        (fun pr hpr => hok pr (List.mem_cons_of_mem _ hpr))]
      · rw [entriesChildren_cons, if_neg (by simp [hn]), List.append_assoc]
        rw [show canonNode v = nd from canonNode_eq hser]
        rfl
      · intro pr hpr
        rw [lookupChild_append, hfresh pr (List.mem_cons_of_mem _ hpr)]
        rw [lookupChild, if_neg ?_]
        · rfl
        · intro hcontra
          exact hnodup.1 (hcontra ▸ List.mem_map.mpr ⟨pr, hpr, rfl⟩)

theorem hasShape_vBool {b : Bool} {s : Shape} (h : hasShape (.vBool b) s = true) :
    s = .sBool := by
  match s with
  | .sBool => rfl
  | .sInt | .sChar | .sStr | .sBytes | .sUnit | .sOption _ | .sSeq _ | .sTuple _ | .sMap _
  | .sStruct _ | .sEnum _ => exact absurd h (by simp [hasShape])

theorem hasShape_vInt {n : Int} {s : Shape} (h : hasShape (.vInt n) s = true) :
    s = .sInt := by
  match s with
  | .sInt => rfl
  | .sBool | .sChar | .sStr | .sBytes | .sUnit | .sOption _ | .sSeq _ | .sTuple _ | .sMap _
  | .sStruct _ | .sEnum _ => exact absurd h (by simp [hasShape])

theorem hasShape_vChar {c : Char} {s : Shape} (h : hasShape (.vChar c) s = true) :
    s = .sChar := by
  match s with
  | .sChar => rfl
  | .sBool | .sInt | .sStr | .sBytes | .sUnit | .sOption _ | .sSeq _ | .sTuple _ | .sMap _
  | .sStruct _ | .sEnum _ => exact absurd h (by simp [hasShape])

theorem hasShape_vStr {bs : Bytes} {s : Shape} (h : hasShape (.vStr bs) s = true) :
    s = .sStr := by
  match s with
  | .sStr => rfl
  | .sBool | .sInt | .sChar | .sBytes | .sUnit | .sOption _ | .sSeq _ | .sTuple _ | .sMap _
  | .sStruct _ | .sEnum _ => exact absurd h (by simp [hasShape])

theorem hasShape_vBytes {bs : Bytes} {s : Shape} (h : hasShape (.vBytes bs) s = true) :
    s = .sBytes := by
  match s with
  | .sBytes => rfl
  | .sBool | .sInt | .sChar | .sStr | .sUnit | .sOption _ | .sSeq _ | .sTuple _ | .sMap _
  | .sStruct _ | .sEnum _ => exact absurd h (by simp [hasShape])

theorem hasShape_vUnit {s : Shape} (h : hasShape .vUnit s = true) :
    s = .sUnit := by
  match s with
  | .sUnit => rfl
  | .sBool | .sInt | .sChar | .sStr | .sBytes | .sOption _ | .sSeq _ | .sTuple _ | .sMap _
  | .sStruct _ | .sEnum _ => exact absurd h (by simp [hasShape])

theorem hasShape_vSome {v : Value} {s : Shape} (h : hasShape (.vSome v) s = true) :
    ∃ s', s = .sOption s' ∧ hasShape v s' = true := by
  match s with
  | .sOption s' => exact ⟨s', rfl, by rw [hasShape] at h; exact h⟩
  | .sBool | .sInt | .sChar | .sStr | .sBytes | .sUnit | .sSeq _ | .sTuple _ | .sMap _
  | .sStruct _ | .sEnum _ => exact absurd h (by simp [hasShape])

theorem hasShape_vSeq {xs : List Value} {s : Shape} (h : hasShape (.vSeq xs) s = true) :
    ∃ s', s = .sSeq s' ∧ hasShapeAll xs s' = true := by
  match s with
  | .sSeq s' => exact ⟨s', rfl, by rw [hasShape] at h; exact h⟩
  | .sBool | .sInt | .sChar | .sStr | .sBytes | .sUnit | .sOption _ | .sTuple _ | .sMap _
  | .sStruct _ | .sEnum _ => exact absurd h (by simp [hasShape])

theorem hasShape_vTuple {xs : List Value} {s : Shape} (h : hasShape (.vTuple xs) s = true) :
    ∃ ss, s = .sTuple ss ∧ hasShapeZip xs ss = true := by
  match s with
  | .sTuple ss => exact ⟨ss, rfl, by rw [hasShape] at h; exact h⟩
  | .sBool | .sInt | .sChar | .sStr | .sBytes | .sUnit | .sOption _ | .sSeq _ | .sMap _
  | .sStruct _ | .sEnum _ => exact absurd h (by simp [hasShape])

theorem hasShape_vMap {es : List (String × Value)} {s : Shape}
    (h : hasShape (.vMap es) s = true) :
    ∃ s', s = .sMap s' ∧ hasShapeVals es s' = true := by
  match s with
  | .sMap s' => exact ⟨s', rfl, by rw [hasShape] at h; exact h⟩
  | .sBool | .sInt | .sChar | .sStr | .sBytes | .sUnit | .sOption _ | .sSeq _ | .sTuple _
  | .sStruct _ | .sEnum _ => exact absurd h (by simp [hasShape])

theorem hasShape_vStruct {fs : List (String × Value)} {s : Shape}
    (h : hasShape (.vStruct fs) s = true) :
    ∃ fss, s = .sStruct fss ∧ hasShapeFields fs fss = true := by
  match s with
  | .sStruct fss => exact ⟨fss, rfl, by rw [hasShape] at h; exact h⟩
  | .sBool | .sInt | .sChar | .sStr | .sBytes | .sUnit | .sOption _ | .sSeq _ | .sTuple _
  | .sMap _ | .sEnum _ => exact absurd h (by simp [hasShape])

theorem hasShape_vUnitVariant {n : String} {s : Shape}
    (h : hasShape (.vUnitVariant n) s = true) :
    ∃ vs, s = .sEnum vs ∧ findVariant vs (strBytes n) = some (n, .unitV) := by
  match s with
  | .sEnum vs =>
    refine ⟨vs, rfl, ?_⟩
    rw [hasShape] at h
    match hfv : findVariant vs (strBytes n) with
    | none => rw [hfv] at h; simp at h
    | some (m, .unitV) =>
      rw [hfv] at h
      simp only [beq_iff_eq] at h
      subst h
      rfl
    | some (m, .newtypeV _) => rw [hfv] at h; simp at h
    | some (m, .tupleV _) => rw [hfv] at h; simp at h
    | some (m, .structV _) => rw [hfv] at h; simp at h
  | .sBool | .sInt | .sChar | .sStr | .sBytes | .sUnit | .sOption _ | .sSeq _ | .sTuple _
  | .sMap _ | .sStruct _ => exact absurd h (by simp [hasShape])

theorem hasShape_vNewtypeVariant {n : String} {p : Value} {s : Shape}
    (h : hasShape (.vNewtypeVariant n p) s = true) :
    ∃ vs s', s = .sEnum vs ∧ findVariant vs (strBytes n) = some (n, .newtypeV s') ∧
      hasShape p s' = true := by
  match s with
  | .sEnum vs =>
    rw [hasShape] at h
    match hfv : findVariant vs (strBytes n) with
    | none => rw [hfv] at h; simp at h
    | some (m, .unitV) => rw [hfv] at h; simp at h
    | some (m, .newtypeV s') =>
      rw [hfv] at h
      simp only [Bool.and_eq_true, beq_iff_eq] at h
      obtain ⟨rfl, hp⟩ := h
      exact ⟨vs, s', rfl, hfv, hp⟩
    | some (m, .tupleV _) => rw [hfv] at h; simp at h
    | some (m, .structV _) => rw [hfv] at h; simp at h
  | .sBool | .sInt | .sChar | .sStr | .sBytes | .sUnit | .sOption _ | .sSeq _ | .sTuple _
  | .sMap _ | .sStruct _ => exact absurd h (by simp [hasShape])

theorem hasShape_vTupleVariant {n : String} {xs : List Value} {s : Shape}
    (h : hasShape (.vTupleVariant n xs) s = true) :
    ∃ vs ss, s = .sEnum vs ∧ findVariant vs (strBytes n) = some (n, .tupleV ss) ∧
      hasShapeZip xs ss = true := by
  match s with
  | .sEnum vs =>
    rw [hasShape] at h
    match hfv : findVariant vs (strBytes n) with
    | none => rw [hfv] at h; simp at h
    | some (m, .unitV) => rw [hfv] at h; simp at h
    | some (m, .newtypeV _) => rw [hfv] at h; simp at h
    | some (m, .tupleV ss) =>
      rw [hfv] at h
      simp only [Bool.and_eq_true, beq_iff_eq] at h
      obtain ⟨rfl, hp⟩ := h
      exact ⟨vs, ss, rfl, hfv, hp⟩
    | some (m, .structV _) => rw [hfv] at h; simp at h
  | .sBool | .sInt | .sChar | .sStr | .sBytes | .sUnit | .sOption _ | .sSeq _ | .sTuple _
  | .sMap _ | .sStruct _ => exact absurd h (by simp [hasShape])

theorem hasShape_vStructVariant {n : String} {fs : List (String × Value)} {s : Shape}
    (h : hasShape (.vStructVariant n fs) s = true) :
    ∃ vs fss, s = .sEnum vs ∧ findVariant vs (strBytes n) = some (n, .structV fss) ∧
      hasShapeFields fs fss = true := by
  match s with
  | .sEnum vs =>
    rw [hasShape] at h
    match hfv : findVariant vs (strBytes n) with
    | none => rw [hfv] at h; simp at h
    | some (m, .unitV) => rw [hfv] at h; simp at h
    | some (m, .newtypeV _) => rw [hfv] at h; simp at h
    | some (m, .tupleV _) => rw [hfv] at h; simp at h
    | some (m, .structV fss) =>
      rw [hfv] at h
      simp only [Bool.and_eq_true, beq_iff_eq] at h
      obtain ⟨rfl, hp⟩ := h
      exact ⟨vs, fss, rfl, hfv, hp⟩
  | .sBool | .sInt | .sChar | .sStr | .sBytes | .sUnit | .sOption _ | .sSeq _ | .sTuple _
  | .sMap _ | .sStruct _ => exact absurd h (by simp [hasShape])

theorem hasShapeZip_getD {xs : List Value} {ss : List Shape} (h : hasShapeZip xs ss = true) :
    ∀ k, k < xs.length → hasShape (xs.getD k .vUnit) (ss.getD k .sUnit) = true := by
  induction xs generalizing ss with
  | nil => intro k hk; simp at hk
  | cons x rest ih =>
    intro k hk
    match ss with
    | [] => exact absurd h (by simp [hasShapeZip])
    | s :: ss' =>
      rw [hasShapeZip] at h
      simp only [Bool.and_eq_true] at h
      match k with
      | 0 => simpa using h.1
      | k'+1 =>
        simp only [List.getD_cons_succ]
        exact ih h.2 k' (by simpa using hk)

theorem hasShapeZip_mem {xs : List Value} {ss : List Shape} (h : hasShapeZip xs ss = true) :
    ∀ x ∈ xs, ∃ sh, hasShape x sh = true := by
  induction xs generalizing ss with
  | nil => simp
  | cons y rest ih =>
    match ss with
    | [] => exact absurd h (by simp [hasShapeZip])
    | s :: ss' =>
      rw [hasShapeZip] at h
      simp only [Bool.and_eq_true] at h
      intro x hx
      rcases List.mem_cons.mp hx with rfl | hx'
      · exact ⟨s, h.1⟩
      · exact ih h.2 x hx'

theorem forall2_imp_mem {α β : Type} {R S : α → β → Prop} :
    ∀ {l1 : List α} {l2 : List β}, List.Forall₂ R l1 l2 →
    (∀ a b, a ∈ l1 → R a b → S a b) → List.Forall₂ S l1 l2 := by
  intro l1 l2 h
  induction h with
  | nil => intro _; exact List.Forall₂.nil
  | cons hd tl ih =>
    intro himp
    exact List.Forall₂.cons (himp _ _ (List.mem_cons_self _ _) hd)
      (ih (fun a b ha hr => himp a b (List.mem_cons_of_mem _ ha) hr))

theorem hasShapeFields_mem {fs : List (String × Value)} {fss : List (String × Shape)}
    (h : hasShapeFields fs fss = true) : ∀ pr ∈ fs, ∃ sh, hasShape pr.2 sh = true := by
  have hf := hasShapeFields_forall h
  clear h
  induction hf with
  | nil => simp
  | cons hd tl ih =>
    intro pr hpr
    rcases List.mem_cons.mp hpr with rfl | hpr'
    · exact ⟨_, hd.2⟩
    · exact ih pr hpr'

theorem map_fst_canon (es : List (String × Value)) :
    (es.map (fun pr => (pr.1, canonNode pr.2))).map Prod.fst = es.map Prod.fst := by
  induction es with
  | nil => rfl
  | cons hd rest ih => simp [ih]

theorem deNode_none_option (s : Shape) : deNode none (.sOption s) = .ok .vNone := by
  rw [deNode]

theorem parseBool_text_true : parseBoolBytes (trimBytes (strBytes "true")) = some true := by
  decide

theorem parseBool_text_false : parseBoolBytes (trimBytes (strBytes "false")) = some false := by
  decide

theorem setAt_none_id {w : FsNode} {p : List String} (hp : p ≠ [])
    (h : lookupAt w p = none) : setAt w p none = w := by
  induction p generalizing w with
  | nil => exact absurd rfl hp
  | cons n rest ih =>
    match w with
    | .file c => exact setAt_file c (by simp) none
    | .dir cs =>
      match rest with
      | [] =>
        match hc : lookupChild cs n with
        | some c => simp [lookupAt, hc] at h
        | none =>
          show FsNode.dir (eraseChild cs n) = FsNode.dir cs
          rw [eraseChild_id hc]
      | m :: rest' =>
        match hc : lookupChild cs n with
        | none =>
          show (match lookupChild cs n with
            | some c => FsNode.dir (setChild cs n (setAt c (m :: rest') none))
            | none => FsNode.dir cs) = FsNode.dir cs
          rw [hc]
        | some c =>
          have h' : lookupAt c (m :: rest') = none := by simpa [lookupAt, hc] using h
          show (match lookupChild cs n with
            | some c => FsNode.dir (setChild cs n (setAt c (m :: rest') none))
            | none => FsNode.dir cs) = FsNode.dir cs
          rw [hc]
          show FsNode.dir (setChild cs n (setAt c (m :: rest') none)) = FsNode.dir cs
          rw [ih (by simp) h', setChild_self hc]

theorem serializeW_notNone : ∀ (N : Nat) (v : Value), sizeOf v ≤ N →
    isNoneLike v = false → ∀ (w : FsNode) (p : List String),
    serializeW w p v = (do
      let w' ← createDirAll w p.dropLast
      let n? ← serNode (lookupAt w' p) v
      Except.ok (setAt w' p n?)) := by
  intro N
  induction N with
  | zero =>
    intro v hsz
    exact absurd hsz (by cases v <;> simp)
  | succ N ih =>
    intro v hsz hn w p
    match v with
    | .vNone => simp [isNoneLike] at hn
    | .vSome x =>
      rw [serializeW]
      rw [ih x (by have := hsz; simp at this; omega) (by simpa [isNoneLike] using hn) w p]
      simp only [serNode]
    | .vBool _ | .vInt _ | .vChar _ | .vStr _ | .vBytes _ | .vUnit | .vUnitVariant _
    | .vNewtypeVariant _ _ | .vSeq _ | .vTuple _ | .vMap _ | .vStruct _
    | .vTupleVariant _ _ | .vStructVariant _ _ => rfl

/-- Core of the round trip: a value passing the shape and rtOk guards
serializes at a fresh path to a node that decodes back to the value,
and the serialization deletes (yields no node) exactly for the
none-like values.  Strong induction on the size of the value. -/
theorem rt_main : ∀ (N : Nat) (v : Value), sizeOf v ≤ N →
    ∀ (s : Shape), hasShape v s = true → rtOk v = true →
    ∃ n?, serNode none v = .ok n? ∧ deNode n? s = .ok v ∧
      (n? = none ↔ isNoneLike v = true) := by
  intro N
  induction N with
  | zero =>
    intro v hsz
    exact absurd hsz (by cases v <;> simp)
  | succ N ih =>
    intro v hsz s hshape hok
    match v with
    | .vBool b =>
      obtain rfl := hasShape_vBool hshape
      cases b
      · refine ⟨some (.file (strBytes "false")), rfl, ?_, by simp [isNoneLike]⟩
        simp [deNode, fileContentD, Bind.bind, Except.bind, parseBool_text_false]
      · refine ⟨some (.file (strBytes "true")), rfl, ?_, by simp [isNoneLike]⟩
        simp [deNode, fileContentD, Bind.bind, Except.bind, parseBool_text_true]
    | .vInt n =>
      obtain rfl := hasShape_vInt hshape
      refine ⟨some (.file (intBytes n)), rfl, ?_, by simp [isNoneLike]⟩
      simp [deNode, fileContentD, Bind.bind, Except.bind, trimBytes_intBytes,
        parseIntBytes_intBytes]
    | .vChar c =>
      obtain rfl := hasShape_vChar hshape
      have hlt : c.toNat < 128 := by simpa [rtOk] using hok
      refine ⟨some (.file (utf8Bytes c)), rfl, ?_, by simp [isNoneLike]⟩
      rw [show utf8Bytes c = [c.toNat] from by simp [utf8Bytes, hlt]]
      rw [deNode]
      simp [Char.ofNat_toNat]
    | .vStr bs =>
      obtain rfl := hasShape_vStr hshape
      refine ⟨some (.file bs), rfl, ?_, by simp [isNoneLike]⟩
      simp [deNode, fileContentD, Bind.bind, Except.bind]
    | .vBytes bs =>
      obtain rfl := hasShape_vBytes hshape
      refine ⟨some (.file bs), rfl, ?_, by simp [isNoneLike]⟩
      simp [deNode, fileContentD, Bind.bind, Except.bind]
    | .vUnit =>
      obtain rfl := hasShape_vUnit hshape
      refine ⟨some (.file []), rfl, ?_, by simp [isNoneLike]⟩
      rw [deNode]
    | .vNone =>
      obtain ⟨s', rfl⟩ := hasShape_vNone hshape
      refine ⟨none, rfl, ?_, by simp [isNoneLike]⟩
      rw [deNode]
    | .vSome x =>
      obtain ⟨s', rfl, hsh'⟩ := hasShape_vSome hshape
      rw [rtOk] at hok
      simp only [Bool.and_eq_true, Bool.not_eq_true'] at hok
      obtain ⟨n?, hser, hde, hiff⟩ :=
        ih x (by have := hsz; simp at this; omega) s' hsh' hok.2
      match n?, hiff, hser, hde with
      | none, hiff, _, _ =>
        rw [hok.1] at hiff
        exact absurd (hiff.mp rfl) (by simp)
      | some nd, _, hser, hde =>
        refine ⟨some nd, ?_, ?_, by simp [isNoneLike, hok.1]⟩
        · rw [serNode]; exact hser
        · simp [deNode, hde, Bind.bind, Except.bind]
    | .vSeq xs =>
      obtain ⟨s', rfl, hall⟩ := hasShape_vSeq hshape
      rw [rtOk] at hok
      have hmem := rtElems_mem hok
      have hsub : ∀ x ∈ xs, sizeOf x ≤ N := by
        intro x hx
        have h1 := List.sizeOf_lt_of_mem hx
        have h2 : sizeOf (Value.vSeq xs) = 1 + sizeOf xs := by simp
        omega
      have hone : ∀ x ∈ xs, serNode none x = .ok (some (canonNode x)) ∧
          deNode (some (canonNode x)) s' = .ok x := by
        intro x hx
        obtain ⟨n?, hser, hde, hiff⟩ :=
          ih x (hsub x hx) s' (hasShapeAll_mem hall x hx) (hmem x hx).2
        match n?, hiff, hser, hde with
        | none, hiff, _, _ =>
          rw [(hmem x hx).1] at hiff
          exact absurd (hiff.mp rfl) (by simp)
        | some nd, _, hser, hde =>
          rw [canonNode_eq hser]
          exact ⟨hser, hde⟩
      have hserall : serElems [] 0 xs = .ok (idxPairs 0 (xs.map canonNode)) := by
        have := serElems_append xs [] 0 (fun j _ => rfl)
          (fun x hx => ⟨canonNode x, (hone x hx).1⟩)
        simpa using this
      refine ⟨some (.dir (idxPairs 0 (xs.map canonNode))), ?_, ?_, by simp [isNoneLike]⟩
      · simp [serNode, seqSerInit, Bind.bind, Except.bind, hserall]
      · have hloop : deSeqLoop (some (.dir (idxPairs 0 (xs.map canonNode)))) s' 0
            (childCount (some (.dir (idxPairs 0 (xs.map canonNode)))) + 1) = .ok xs := by
          apply deSeqLoop_ok
          · intro k hk
            show lookupChild (idxPairs 0 (xs.map canonNode)) (natToStr (0 + k)) = _
            rw [Nat.zero_add]
            rw [lookupChild_idxPairs_lt _ 0 k (by omega) (by simpa using hk)]
            rw [show k - 0 = k from rfl, getD_map_canon]
          · show lookupChild (idxPairs 0 (xs.map canonNode)) (natToStr (0 + xs.length)) = none
            apply lookupChild_idxPairs_ge
            simp
          · intro k hk
            exact (hone _ (getD_mem_of_lt hk)).2
          · show xs.length < childCount _ + 1
            rw [show childCount (some (.dir (idxPairs 0 (xs.map canonNode)))) =
              (idxPairs 0 (xs.map canonNode)).length from rfl]
            rw [idxPairs_length, List.length_map]
            omega
        simp [deNode, hloop, Bind.bind, Except.bind]
    | .vTuple xs =>
      obtain ⟨ss, rfl, hzip⟩ := hasShape_vTuple hshape
      rw [rtOk] at hok
      have hmem := rtElems_mem hok
      have hlen := hasShapeZip_length hzip
      have hsub : ∀ x ∈ xs, sizeOf x ≤ N := by
        intro x hx
        have h1 := List.sizeOf_lt_of_mem hx
        have h2 : sizeOf (Value.vTuple xs) = 1 + sizeOf xs := by simp
        omega
      have hser1 : ∀ x ∈ xs, serNode none x = .ok (some (canonNode x)) := by
        intro x hx
        obtain ⟨sh, hsh⟩ := hasShapeZip_mem hzip x hx
        obtain ⟨n?, hser, hde, hiff⟩ := ih x (hsub x hx) sh hsh (hmem x hx).2
        match n?, hiff, hser with
        | none, hiff, _ =>
          rw [(hmem x hx).1] at hiff
          exact absurd (hiff.mp rfl) (by simp)
        | some nd, _, hser =>
          rw [canonNode_eq hser]
          exact hser
      have hde1 : ∀ k, k < xs.length →
          deNode (some (canonNode (xs.getD k .vUnit))) (ss.getD k .sUnit) =
            .ok (xs.getD k .vUnit) := by
        intro k hk
        have hx : xs.getD k .vUnit ∈ xs := getD_mem_of_lt hk
        obtain ⟨n?, hser, hde, hiff⟩ :=
          ih _ (hsub _ hx) _ (hasShapeZip_getD hzip k hk) (hmem _ hx).2
        match n?, hiff, hser, hde with
        | none, hiff, _, _ =>
          rw [(hmem _ hx).1] at hiff
          exact absurd (hiff.mp rfl) (by simp)
        | some nd, _, hser, hde =>
          rw [canonNode_eq hser]
          exact hde
      have hserall : serElems [] 0 xs = .ok (idxPairs 0 (xs.map canonNode)) := by
        have := serElems_append xs [] 0 (fun j _ => rfl)
          (fun x hx => ⟨canonNode x, hser1 x hx⟩)
        simpa using this
      refine ⟨some (.dir (idxPairs 0 (xs.map canonNode))), ?_, ?_, by simp [isNoneLike]⟩
      · simp [serNode, seqSerInit, Bind.bind, Except.bind, hserall]
      · have hloop : deTupleLoop (some (.dir (idxPairs 0 (xs.map canonNode))))
            ss.length ss 0 = .ok xs := by
          apply deTupleLoop_ok _ _ _ _ _ hlen
          · intro k hk
            show lookupChild (idxPairs 0 (xs.map canonNode)) (natToStr (0 + k)) = _
            rw [Nat.zero_add]
            rw [lookupChild_idxPairs_lt _ 0 k (by omega) (by simpa using hk)]
            rw [show k - 0 = k from rfl, getD_map_canon]
          · exact hde1
        simp [deNode, hloop, Bind.bind, Except.bind]
    | .vMap es =>
      obtain ⟨s', rfl, hvals⟩ := hasShape_vMap hshape
      rw [rtOk] at hok
      simp only [Bool.and_eq_true, decide_eq_true_eq] at hok
      have hmem := rtVals_mem hok.2
      have hsub : ∀ pr ∈ es, sizeOf pr.2 ≤ N := by
        intro pr hpr
        have h1 := List.sizeOf_lt_of_mem hpr
        have h2 : sizeOf (Value.vMap es) = 1 + sizeOf es := by simp
        have h3 : sizeOf pr.2 ≤ sizeOf pr := by
          obtain ⟨k, x⟩ := pr
          simp
        omega
      have hone : ∀ pr ∈ es, serNode none pr.2 = .ok (some (canonNode pr.2)) ∧
          deNode (some (canonNode pr.2)) s' = .ok pr.2 := by
        intro pr hpr
        obtain ⟨n?, hser, hde, hiff⟩ :=
          ih pr.2 (hsub pr hpr) s' (hasShapeVals_mem hvals pr hpr) (hmem pr hpr).2
        match n?, hiff, hser, hde with
        | none, hiff, _, _ =>
          rw [(hmem pr hpr).1] at hiff
          exact absurd (hiff.mp rfl) (by simp)
        | some nd, _, hser, hde =>
          rw [canonNode_eq hser]
          exact ⟨hser, hde⟩
      have hfil : es.filter (fun pr => !isNoneLike pr.2) = es :=
        List.filter_eq_self.mpr (fun pr hpr => by simp [(hmem pr hpr).1])
      have hec : entriesChildren es = es.map (fun pr => (pr.1, canonNode pr.2)) := by
        rw [entriesChildren, hfil]
      have hserall : serEntries [] es = .ok (entriesChildren es) := by
        have := serEntries_general es [] (fun pr _ => rfl) hok.1
          (fun pr hpr => ⟨some (canonNode pr.2), (hone pr hpr).1, by simp [(hmem pr hpr).1]⟩)
        simpa using this
      have hnames : namesOf (some (.dir (entriesChildren es))) = es.map Prod.fst := by
        rw [show namesOf (some (.dir (entriesChildren es))) =
          (entriesChildren es).map Prod.fst from rfl]
        rw [hec, map_fst_canon]
      have hloop : deMapLoop (entriesChildren es) s' (es.map Prod.fst) = .ok es := by
        apply deMapLoop_ok
        intro pr hpr
        rw [lookupChild_entriesChildren hok.1 pr hpr, if_neg (by simp [(hmem pr hpr).1])]
        exact (hone pr hpr).2
      refine ⟨some (.dir (entriesChildren es)), ?_, ?_, by simp [isNoneLike]⟩
      · simp [serNode, mapSerInit, Bind.bind, Except.bind, hserall]
      · simp [deNode, hnames, hloop, Bind.bind, Except.bind]
    | .vStruct fs =>
      obtain ⟨fss, rfl, hfields⟩ := hasShape_vStruct hshape
      rw [rtOk] at hok
      simp only [Bool.and_eq_true, decide_eq_true_eq] at hok
      have hmem := rtFields_mem hok.2
      have hsub : ∀ pr ∈ fs, sizeOf pr.2 ≤ N := by
        intro pr hpr
        have h1 := List.sizeOf_lt_of_mem hpr
        have h2 : sizeOf (Value.vStruct fs) = 1 + sizeOf fs := by simp
        have h3 : sizeOf pr.2 ≤ sizeOf pr := by
          obtain ⟨k, x⟩ := pr
          simp
        omega
      have hoks : ∀ pr ∈ fs, ∃ n?, serNode none pr.2 = .ok n? ∧
          (n? = none ↔ isNoneLike pr.2 = true) := by
        intro pr hpr
        obtain ⟨sh, hsh⟩ := hasShapeFields_mem hfields pr hpr
        obtain ⟨n?, hser, hde, hiff⟩ := ih pr.2 (hsub pr hpr) sh hsh (hmem pr hpr)
        exact ⟨n?, hser, hiff⟩
      have hserall : serEntries [] fs = .ok (entriesChildren fs) := by
        have := serEntries_general fs [] (fun pr _ => rfl) hok.1 hoks
        simpa using this
      have hfloop : deFieldsLoop (some (.dir (entriesChildren fs))) fss = .ok fs := by
        apply deFieldsLoop_ok
        apply forall2_imp_mem (hasShapeFields_forall hfields)
        intro fv fsh hfvm hR
        refine ⟨hR.1, ?_⟩
        show deNode (lookupChild (entriesChildren fs) fv.1) fsh.2 = .ok fv.2
        rw [lookupChild_entriesChildren hok.1 fv hfvm]
        by_cases hn : isNoneLike fv.2 = true
        · rw [if_pos hn]
          have hv := isNoneLike_eq_vNone (hmem fv hfvm) hn
          obtain ⟨s₀, hs₀⟩ := hasShape_vNone (hv ▸ hR.2)
          rw [hs₀, hv]
          exact deNode_none_option s₀
        · rw [if_neg hn]
          obtain ⟨n?, hser, hde, hiff⟩ := ih fv.2 (hsub fv hfvm) fsh.2 hR.2 (hmem fv hfvm)
          match n?, hiff, hser, hde with
          | none, hiff, _, _ => exact absurd (hiff.mp rfl) hn
          | some nd, _, hser, hde =>
            rw [canonNode_eq hser]
            exact hde
      refine ⟨some (.dir (entriesChildren fs)), ?_, ?_, by simp [isNoneLike]⟩
      · simp [serNode, mapSerInit, Bind.bind, Except.bind, hserall]
      · simp [deNode, hfloop, Bind.bind, Except.bind]
    | .vUnitVariant name =>
      obtain ⟨vs, rfl, hfv⟩ := hasShape_vUnitVariant hshape
      refine ⟨some (.file (strBytes name)), rfl, ?_, by simp [isNoneLike]⟩
      rw [deNode]
      simp [hfv]
    | .vNewtypeVariant name payload =>
      obtain ⟨vs, s', rfl, hfv, hpsh⟩ := hasShape_vNewtypeVariant hshape
      rw [rtOk] at hok
      have hpsz : sizeOf payload ≤ N := by have := hsz; simp at this; omega
      obtain ⟨n?, hser, hde, hiff⟩ := ih payload hpsz s' hpsh hok
      have hcs : setChild (newtypeVariantInit none) "variant" (.file (strBytes name)) =
          [("variant", FsNode.file (strBytes name))] := rfl
      have hlv : lookupChild [("variant", FsNode.file (strBytes name))] "value" = none := by
        rw [lookupChild, if_neg (by decide)]
        rfl
      match n?, hiff, hser, hde with
      | none, hiff, hser, hde =>
        refine ⟨some (.dir [("variant", .file (strBytes name))]), ?_, ?_, by simp [isNoneLike]⟩
        · simp only [serNode, Bind.bind, Except.bind]
          rw [hcs, hlv, hser]
          rfl
        · rw [deNode]
          rw [show lookupChild [("variant", FsNode.file (strBytes name))] "variant" =
            some (FsNode.file (strBytes name)) from by rw [lookupChild, if_pos rfl]]
          simp only [fileContentD, Bind.bind, Except.bind]
          split
          · rename_i h
            rw [hfv] at h
            simp at h
          · rename_i m h
            rw [hfv] at h
            simp at h
          · rename_i m s0 h
            rw [hfv] at h
            simp only [Option.some.injEq, Prod.mk.injEq, VariantShape.newtypeV.injEq] at h
            obtain ⟨rfl, rfl⟩ := h
            rw [hlv, hde]
          · rename_i m ss0 h
            rw [hfv] at h
            simp at h
          · rename_i m fss0 h
            rw [hfv] at h
            simp at h
      | some nd, hiff, hser, hde =>
        refine ⟨some (.dir [("variant", .file (strBytes name)), ("value", nd)]), ?_, ?_,
          by simp [isNoneLike]⟩
        · simp only [serNode, Bind.bind, Except.bind]
          rw [hcs, hlv, hser]
          rfl
        · rw [deNode]
          rw [show lookupChild [("variant", FsNode.file (strBytes name)), ("value", nd)]
            "variant" = some (FsNode.file (strBytes name)) from by rw [lookupChild, if_pos rfl]]
          simp only [fileContentD, Bind.bind, Except.bind]
          split
          · rename_i h
            rw [hfv] at h
            simp at h
          · rename_i m h
            rw [hfv] at h
            simp at h
          · rename_i m s0 h
            rw [hfv] at h
            simp only [Option.some.injEq, Prod.mk.injEq, VariantShape.newtypeV.injEq] at h
            obtain ⟨rfl, rfl⟩ := h
            rw [show lookupChild [("variant", FsNode.file (strBytes name)), ("value", nd)]
              "value" = some nd from by simp [lookupChild]]
            rw [hde]
          · rename_i m ss0 h
            rw [hfv] at h
            simp at h
          · rename_i m fss0 h
            rw [hfv] at h
            simp at h
    | .vTupleVariant name xs =>
      obtain ⟨vs, ss, rfl, hfv, hzip⟩ := hasShape_vTupleVariant hshape
      rw [rtOk] at hok
      have hmem := rtElems_mem hok
      have hlen := hasShapeZip_length hzip
      have hsub : ∀ x ∈ xs, sizeOf x ≤ N := by
        intro x hx
        have h1 := List.sizeOf_lt_of_mem hx
        have h2 : sizeOf (Value.vTupleVariant name xs) = 1 + sizeOf name + sizeOf xs := by simp
        omega
      have hser1 : ∀ x ∈ xs, serNode none x = .ok (some (canonNode x)) := by
        intro x hx
        obtain ⟨sh, hsh⟩ := hasShapeZip_mem hzip x hx
        obtain ⟨n?, hser, hde, hiff⟩ := ih x (hsub x hx) sh hsh (hmem x hx).2
        match n?, hiff, hser with
        | none, hiff, _ =>
          rw [(hmem x hx).1] at hiff
          exact absurd (hiff.mp rfl) (by simp)
        | some nd, _, hser =>
          rw [canonNode_eq hser]
          exact hser
      have hde1 : ∀ k, k < xs.length →
          deNode (some (canonNode (xs.getD k .vUnit))) (ss.getD k .sUnit) =
            .ok (xs.getD k .vUnit) := by
        intro k hk
        have hx : xs.getD k .vUnit ∈ xs := getD_mem_of_lt hk
        obtain ⟨n?, hser, hde, hiff⟩ :=
          ih _ (hsub _ hx) _ (hasShapeZip_getD hzip k hk) (hmem _ hx).2
        match n?, hiff, hser, hde with
        | none, hiff, _, _ =>
          rw [(hmem _ hx).1] at hiff
          exact absurd (hiff.mp rfl) (by simp)
        | some nd, _, hser, hde =>
          rw [canonNode_eq hser]
          exact hde
      have hserall : serElems [("variant", FsNode.file (strBytes name))] 0 xs =
          .ok ([("variant", FsNode.file (strBytes name))] ++ idxPairs 0 (xs.map canonNode)) := by
        apply serElems_append
        · intro j _
          rw [lookupChild, if_neg (ne_natToStr_of_parseUsize_none (by decide) j)]
          rfl
        · intro x hx
          exact ⟨canonNode x, hser1 x hx⟩
      refine ⟨some (.dir (("variant", FsNode.file (strBytes name)) ::
        idxPairs 0 (xs.map canonNode))), ?_, ?_, by simp [isNoneLike]⟩
      · simp only [serNode, seqSerInit, Bind.bind, Except.bind]
        rw [show setChild ([] : Children) "variant" (FsNode.file (strBytes name)) =
          [("variant", FsNode.file (strBytes name))] from rfl]
        rw [hserall]
        rfl
      · rw [deNode]
        rw [show lookupChild (("variant", FsNode.file (strBytes name)) ::
          idxPairs 0 (xs.map canonNode)) "variant" = some (FsNode.file (strBytes name)) from
          by rw [lookupChild, if_pos rfl]]
        simp only [fileContentD, Bind.bind, Except.bind]
        split
        · rename_i h
          rw [hfv] at h
          simp at h
        · rename_i m h
          rw [hfv] at h
          simp at h
        · rename_i m s0 h
          rw [hfv] at h
          simp at h
        · rename_i m ss0 h
          rw [hfv] at h
          simp only [Option.some.injEq, Prod.mk.injEq, VariantShape.tupleV.injEq] at h
          obtain ⟨rfl, rfl⟩ := h
          have hloop : deTupleLoop (some (.dir (("variant", FsNode.file (strBytes name)) ::
              idxPairs 0 (xs.map canonNode)))) ss.length ss 0 = .ok xs := by
            apply deTupleLoop_ok _ _ _ _ _ hlen
            · intro k hk
              show lookupChild (("variant", FsNode.file (strBytes name)) ::
                idxPairs 0 (xs.map canonNode)) (natToStr (0 + k)) = _
              rw [Nat.zero_add, lookupChild,
                if_neg (ne_natToStr_of_parseUsize_none (by decide) k)]
              rw [lookupChild_idxPairs_lt _ 0 k (by omega) (by simpa using hk)]
              rw [show k - 0 = k from rfl, getD_map_canon]
            · exact hde1
          rw [hloop]
        · rename_i m fss0 h
          rw [hfv] at h
          simp at h
    | .vStructVariant name fs =>
      obtain ⟨vs, fss, rfl, hfv, hfields⟩ := hasShape_vStructVariant hshape
      rw [rtOk] at hok
      simp only [Bool.and_eq_true, decide_eq_true_eq] at hok
      obtain ⟨⟨hnodup, hnv⟩, hrf⟩ := hok
      have hmem := rtFields_mem hrf
      have hsub : ∀ pr ∈ fs, sizeOf pr.2 ≤ N := by
        intro pr hpr
        have h1 := List.sizeOf_lt_of_mem hpr
        have h2 : sizeOf (Value.vStructVariant name fs) = 1 + sizeOf name + sizeOf fs := by simp
        have h3 : sizeOf pr.2 ≤ sizeOf pr := by
          obtain ⟨k, x⟩ := pr
          simp
        omega
      have hoks : ∀ pr ∈ fs, ∃ n?, serNode none pr.2 = .ok n? ∧
          (n? = none ↔ isNoneLike pr.2 = true) := by
        intro pr hpr
        obtain ⟨sh, hsh⟩ := hasShapeFields_mem hfields pr hpr
        obtain ⟨n?, hser, hde, hiff⟩ := ih pr.2 (hsub pr hpr) sh hsh (hmem pr hpr)
        exact ⟨n?, hser, hiff⟩
      have hserall : serEntries [("variant", FsNode.file (strBytes name))] fs =
          .ok ([("variant", FsNode.file (strBytes name))] ++ entriesChildren fs) := by
        apply serEntries_general fs _ ?_ hnodup hoks
        intro pr hpr
        have hne : "variant" ≠ pr.1 := by
          intro hc
          rw [hc] at hnv
          exact hnv (List.mem_map.mpr ⟨pr, hpr, rfl⟩)
        rw [lookupChild, if_neg hne]
        rfl
      have hfloop : deFieldsLoop (some (.dir (("variant", FsNode.file (strBytes name)) ::
          entriesChildren fs))) fss = .ok fs := by
        apply deFieldsLoop_ok
        apply forall2_imp_mem (hasShapeFields_forall hfields)
        intro fv fsh hfvm hR
        refine ⟨hR.1, ?_⟩
        show deNode (lookupChild (("variant", FsNode.file (strBytes name)) ::
          entriesChildren fs) fv.1) fsh.2 = .ok fv.2
        have hne : "variant" ≠ fv.1 := by
          intro hc
          rw [hc] at hnv
          exact hnv (List.mem_map.mpr ⟨fv, hfvm, rfl⟩)
        rw [lookupChild, if_neg hne]
        rw [lookupChild_entriesChildren hnodup fv hfvm]
        by_cases hn : isNoneLike fv.2 = true
        · rw [if_pos hn]
          have hv := isNoneLike_eq_vNone (hmem fv hfvm) hn
          obtain ⟨s₀, hs₀⟩ := hasShape_vNone (hv ▸ hR.2)
          rw [hs₀, hv]
          exact deNode_none_option s₀
        · rw [if_neg hn]
          obtain ⟨n?, hser, hde, hiff⟩ := ih fv.2 (hsub fv hfvm) fsh.2 hR.2 (hmem fv hfvm)
          match n?, hiff, hser, hde with
          | none, hiff, _, _ => exact absurd (hiff.mp rfl) hn
          | some nd, _, hser, hde =>
            rw [canonNode_eq hser]
            exact hde
      refine ⟨some (.dir (("variant", FsNode.file (strBytes name)) :: entriesChildren fs)),
        ?_, ?_, by simp [isNoneLike]⟩
      · simp only [serNode, mapSerInit, Bind.bind, Except.bind]
        rw [show setChild ([] : Children) "variant" (FsNode.file (strBytes name)) =
          [("variant", FsNode.file (strBytes name))] from rfl]
        rw [hserall]
        rfl
      · rw [deNode]
        rw [show lookupChild (("variant", FsNode.file (strBytes name)) :: entriesChildren fs)
          "variant" = some (FsNode.file (strBytes name)) from by rw [lookupChild, if_pos rfl]]
        simp only [fileContentD, Bind.bind, Except.bind]
        split
        · rename_i h
          rw [hfv] at h
          simp at h
        · rename_i m h
          rw [hfv] at h
          simp at h
        · rename_i m s0 h
          rw [hfv] at h
          simp at h
        · rename_i m ss0 h
          rw [hfv] at h
          simp at h
        · rename_i m fss0 h
          rw [hfv] at h
          simp only [Option.some.injEq, Prod.mk.injEq, VariantShape.structV.injEq] at h
          obtain ⟨rfl, rfl⟩ := h
          rw [hfloop]

/-- C1 counterexample: the claim fails without further conditions.  A
char outside ASCII — here U+00E9 — is written as its two-byte UTF-8
encoding, but deserialize_char reads only the first byte of the file
and widens it (src/de.rs lines 130-141), so the round trip returns
U+00C3 instead of the original character. -/
theorem c1_counterexample :
    serializeW (.dir []) ["c"] (.vChar (Char.ofNat 233)) =
      .ok (.dir [("c", .file [195, 169])]) ∧
    deserializeW (.dir [("c", .file [195, 169])]) ["c"] .sChar =
      .ok (.vChar (Char.ofNat 195)) ∧
    Char.ofNat 195 ≠ Char.ofNat 233 := by
  refine ⟨rfl, ?_, by decide⟩
  rw [deserializeW, show lookupAt (.dir [("c", .file [195, 169])]) ["c"] =
    some (.file [195, 169]) from rfl, deNode]

/-- C1 (amended): the round trip holds for every supported shape and
every value of that shape at a fresh path whose parent chain is not
blocked by a file, provided the guards the code's own behaviour makes
necessary: every char is a single UTF-8 byte (deserialize_char reads
one byte, see the counterexample), no some-wrapped none (serialize_none
deletes, so Some(None) decodes as None), no none as a sequence/tuple
element or map entry value (the deleted child shifts or loses entries),
map keys and struct field names are duplicate-free, and no
struct-variant field is named variant (it would overwrite the
discriminant marker). -/
theorem c1_roundtrip (w : FsNode) (p : List String) (v : Value) (s : Shape)
    (hshape : hasShape v s = true) (hok : rtOk v = true) (hp : p ≠ [])
    (hclear : pathClear w p.dropLast = true) (hfresh : lookupAt w p = none) :
    ∃ w', serializeW w p v = .ok w' ∧ deserializeW w' p s = .ok v := by
  obtain ⟨n?, hser, hde, hiff⟩ := rt_main (sizeOf v) v le_rfl s hshape hok
  match n?, hser, hde, hiff with
  | none, hser, hde, hiff =>
    have hv : v = .vNone := isNoneLike_eq_vNone hok (hiff.mp rfl)
    subst hv
    refine ⟨setAt w p none, rfl, ?_⟩
    rw [setAt_none_id hp hfresh]
    rw [deserializeW, hfresh]
    exact hde
  | some nd, hser, hde, hiff =>
    have hn : isNoneLike v = false := by
      rcases hnl : isNoneLike v with _ | _
      · rfl
      · exact Option.noConfusion (hiff.mpr hnl)
    obtain ⟨w₁, hw₁, cs₁, hcs₁⟩ := createDirAll_of_pathClear hclear
    have hlp : lookupAt w₁ p = none := by
      have hsplit : p.dropLast ++ [p.getLast hp] = p := List.dropLast_append_getLast hp
      rw [← hsplit, lookupAt_createDirAll hw₁, hsplit]
      exact hfresh
    refine ⟨setAt w₁ p (some nd), ?_, ?_⟩
    · rw [serializeW_notNone (sizeOf v) v le_rfl hn w p, hw₁]
      simp only [Bind.bind, Except.bind]
      rw [hlp, hser]
    · rw [deserializeW, lookupAt_setAt_self nd ⟨cs₁, hcs₁⟩]
      exact hde

/-- C1 witness: round trip of a struct with an integer field, an absent
optional field and a present optional field, at a fresh path in an
empty root. -/
theorem c1_roundtrip_witness :
    ∃ w', serializeW (.dir []) ["data"]
        (.vStruct [("n", .vInt (-7)), ("o", .vNone), ("b", .vSome (.vBool true))]) = .ok w' ∧
      deserializeW w' ["data"]
        (.sStruct [("n", .sInt), ("o", .sOption .sBool), ("b", .sOption .sBool)]) =
        .ok (.vStruct [("n", .vInt (-7)), ("o", .vNone), ("b", .vSome (.vBool true))]) :=
  c1_roundtrip (.dir []) ["data"]
    (.vStruct [("n", .vInt (-7)), ("o", .vNone), ("b", .vSome (.vBool true))])
    (.sStruct [("n", .sInt), ("o", .sOption .sBool), ("b", .sOption .sBool)])
    (by decide) (by decide) (by simp) rfl rfl
